import Mathlib

/-!
Verification development for the voice-chat subsystem of `radiochat-tui`
(`src/voice/audio.rs` and `src/voice/manager.rs`).

The development contains two shallow embeddings:

* `StatefulResampler` — the linear-interpolation sample-rate converter of
  `audio.rs`, with `f32` samples idealised as exact rationals (`ℚ`).  The
  interpolation `loop` of `StatefulResampler::process` may diverge for
  degenerate rate pairs (e.g. `from_rate = 0`), so it is embedded as a
  fuel-indexed function returning `Option`: `none` models divergence.

* `VoiceManager` — the signaling state machine of `manager.rs`.  Commands,
  inbound signals and the relevant background-task steps (the capture/encode
  pipeline feeding the local track, `on_track` playback creation, internal
  cleanup instructions) are modelled as atomic actions on one explicit state;
  emitted `VoiceEvent`s are accumulated in an ordered list.  WebRTC
  connections are modelled as an arena of `Conn` records indexed by creation
  order; signaling payloads are carried verbatim as strings (parsing is
  assumed to succeed, matching the happy path of the `serde_json` calls).
-/

/- ### Resampler (`audio.rs`, `StatefulResampler`) -/

/-- State of `StatefulResampler` (`audio.rs` lines 17–28).  `f32` fields are
idealised as `ℚ`; the `u32` rates as `ℕ`. -/
structure StatefulResampler where
  from_rate : ℕ
  to_rate : ℕ
  last_sample : ℚ
  fraction : ℚ
  samples_to_drop : ℕ
  deriving DecidableEq, Repr

/-- `StatefulResampler::new` (`audio.rs` line 26). -/
def StatefulResampler.new (f t : ℕ) : StatefulResampler :=
  { from_rate := f, to_rate := t, last_sample := 0, fraction := 0, samples_to_drop := 0 }

/-- The inner `while self.fraction >= 1.0 { self.fraction -= 1.0; idx += 1; }`
of `StatefulResampler::process` (`audio.rs` lines 56–59), returning the final
`(fraction, idx)`. -/
def normalizeFraction (f : ℚ) (idx : ℤ) : ℚ × ℤ :=
  if h : 1 ≤ f then normalizeFraction (f - 1) (idx + 1) else (f, idx)
termination_by (⌈f⌉).toNat
decreasing_by
  have h0 : (0 : ℤ) < ⌈f⌉ := Int.ceil_pos.mpr (lt_of_lt_of_le one_pos h)
  have h1 : ⌈f - 1⌉ = ⌈f⌉ - 1 := by
    exact_mod_cast Int.ceil_sub_int f 1
  simp only [h1]
  omega

/-- The interpolation `loop` of `StatefulResampler::process` (`audio.rs`
lines 43–60), fuel-indexed.  `none` models the loop still running after
`fuel` iterations (the Rust loop has no fuel and simply diverges in the
cases where every fuel yields `none`).  The result is the produced output
together with the final `idx` and `fraction`. -/
def resLoop (input : List ℚ) (last_sample ratioQ : ℚ) :
    ℕ → ℤ → ℚ → List ℚ → Option (List ℚ × ℤ × ℚ)
  | 0, _, _, _ => none
  | fuel + 1, idx, fraction, output =>
    if (input.length : ℤ) ≤ idx + 1 then some (output, idx, fraction)
    else
      let s0 := if idx = -1 then last_sample else input.getD idx.toNat 0
      let s1 := input.getD (idx + 1).toNat 0
      let val := s0 + (s1 - s0) * fraction
      let p := normalizeFraction (fraction + ratioQ) idx
      resLoop input last_sample ratioQ fuel p.2 p.1 (output ++ [val])

/-- Fuel that suffices for `resLoop` to reach its `break` whenever
`1 ≤ from_rate` and `1 ≤ to_rate` (proved in `resLoop_some_of_fuel`). -/
def processFuel (st : StatefulResampler) (input : List ℚ) : ℕ :=
  (input.length + 1) * st.to_rate + 1

/-- `StatefulResampler::process` (`audio.rs` lines 30–92).  Returns `none`
when the interpolation loop diverges (which the Rust code does for
degenerate rates such as `from_rate = 0`, see `resampler_termination`).
The `i32`-to-`usize` cast of `new_idx + 1` is modelled by `Int.toNat`; at
every loop exit `new_idx + 1 ≥ 0`, so the cast never wraps. -/
def StatefulResampler.process (st : StatefulResampler) (input : List ℚ) :
    Option (List ℚ × StatefulResampler) :=
  if st.from_rate = st.to_rate then some (input, st)
  else
    let ratioQ : ℚ := (st.from_rate : ℚ) / (st.to_rate : ℚ)
    let idx0 : ℤ := -1 + st.samples_to_drop
    match resLoop input st.last_sample ratioQ (processFuel st input) idx0 st.fraction [] with
    | none => none
    | some (output, idx, fraction) =>
      let new_idx : ℤ := idx - input.length
      some (output,
        { st with
          last_sample := input.getLastD st.last_sample,
          fraction := fraction,
          samples_to_drop := (new_idx + 1).toNat })

/-- Invariant of every reachable resampler state: the fractional phase stays
in `[0, 1)` (it starts at `0` and `normalizeFraction` re-establishes it). -/
def StatefulResampler.inv (st : StatefulResampler) : Prop :=
  0 ≤ st.fraction ∧ st.fraction < 1

/-- The descending preference list of codec-supported sample rates
(`audio.rs` lines 127 and 249, `preferred_rates`). -/
def preferred_rates : List ℕ := [48000, 24000, 16000, 12000, 8000]

/- ### Voice manager (`manager.rs`) -/

/-- `VoiceEvent` (`manager.rs` lines 46–69). -/
inductive VoiceEvent where
  | Signal (target_id : Option String) (signal_type : String) (data : String)
  | Connecting
  | Connected
  | Disconnected
  | ConnectionFailed (reason : String)
  | PeerConnected (id : String)
  | PeerDisconnected (id : String)
  | PeerConnectionFailed (id : String)
  | MuteStateChanged (b : Bool)
  | TxActivity (b : Bool)
  | AudioError (msg : String)
  deriving DecidableEq, Repr

/-- Whether an event is an outbound `Signal` (used to state that failure
paths contact no peers). -/
def VoiceEvent.isSignal : VoiceEvent → Bool
  | .Signal _ _ _ => true
  | _ => false

/-- Model of one `RTCPeerConnection` as observed through the manager:
whether `close()` was called, the descriptions set on it, and the ICE
candidates applied to it via `add_ice_candidate`, in application order. -/
structure Conn where
  closed : Bool
  remoteDesc : Option String
  localDesc : Option String
  candidates : List String
  deriving DecidableEq, Repr

/-- A freshly created peer connection (`api.new_peer_connection`). -/
def Conn.fresh : Conn :=
  { closed := false, remoteDesc := none, localDesc := none, candidates := [] }

/-- Model of `AudioEngine` stream state.  `capture_open` models
`input_stream.is_some()` (`audio.rs` line 13).

Modelled from the spec: `manager.rs` calls `start_playback_for_peer` and
`remove_peer_stream`, whose implementations are not in the provided
`audio.rs` (which still has the older un-keyed `output_streams: Vec<_>` and
`start_playback`); per the spec (§4.2) playback streams are keyed by peer
id, so `playback_peers` records which peers currently own a playback
stream. -/
structure AudioEngine where
  capture_open : Bool
  playback_peers : List String
  deriving DecidableEq, Repr

/-- `AudioEngine::new` (`audio.rs` lines 96–101). -/
def AudioEngine.new : AudioEngine :=
  { capture_open := false, playback_peers := [] }

/-- `AudioEngine::reset` (`audio.rs` lines 104–116): drops the input stream
and all output streams unconditionally. -/
def AudioEngine.reset (_a : AudioEngine) : AudioEngine :=
  { capture_open := false, playback_peers := [] }

/-- Modelled from the spec (§4.2): `remove_peer_stream(peer_id)` tears down
the playback stream of exactly that peer and is a no-op when the peer has
none.  Its implementation is absent from the provided `audio.rs`; only its
callers in `manager.rs` exist. -/
def AudioEngine.remove_peer_stream (a : AudioEngine) (peer_id : String) : AudioEngine :=
  { a with playback_peers := a.playback_peers.filter (fun q => q ≠ peer_id) }

/-- Modelled from the spec (§4.2): `start_playback_for_peer(peer_id, ..)`
gives the peer its own playback stream (reusing it if one is already
open for that peer).  Its implementation is absent from the provided
`audio.rs`; only its caller in `manager.rs` exists. -/
def AudioEngine.start_playback_for_peer (a : AudioEngine) (peer_id : String) : AudioEngine :=
  if peer_id ∈ a.playback_peers then a
  else { a with playback_peers := a.playback_peers ++ [peer_id] }

/-- Association-list lookup, modelling `HashMap::get` (the maps of
`manager.rs` keyed by peer id). -/
def lookupA {α : Type} : List (String × α) → String → Option α
  | [], _ => none
  | e :: rest, k => if e.1 = k then some e.2 else lookupA rest k

/-- Association-list removal, modelling `HashMap::remove` (under the
unique-keys invariant of a `HashMap`, removing every entry with the key
coincides with removing the one entry). -/
def removeKey {α : Type} : List (String × α) → String → List (String × α)
  | [], _ => []
  | e :: rest, k => if e.1 = k then removeKey rest k else e :: removeKey rest k

/-- Replace the value stored under `k` (used for the
`entry(..).or_insert_with(..).push(..)` update of `pending_candidates`). -/
def setKey {α : Type} : List (String × α) → String → α → List (String × α)
  | [], _, _ => []
  | e :: rest, k, v => if e.1 = k then (e.1, v) :: rest else e :: setKey rest k v

/-- `pending_candidates.entry(sender).or_insert_with(Vec::new).push(candidate)`
(`manager.rs` lines 518–521). -/
def pendingPush (l : List (String × List String)) (k v : String) : List (String × List String) :=
  match lookupA l k with
  | some vs => setKey l k (vs ++ [v])
  | none => l ++ [(k, [v])]

/-- Update the connection stored at arena index `i` (no-op out of range). -/
def modifyConn : List Conn → ℕ → (Conn → Conn) → List Conn
  | [], _, _ => []
  | c :: rest, 0, f => f c :: rest
  | c :: rest, i + 1, f => c :: modifyConn rest i f

/-- `pc.close()` on the connection at arena index `i`. -/
def closeConn (cs : List Conn) (i : ℕ) : List Conn :=
  modifyConn cs i (fun c => { c with closed := true })

/-- `pc.add_ice_candidate(candidate)` on the connection at arena index `i`. -/
def pushCandidate (cs : List Conn) (i : ℕ) (cand : String) : List Conn :=
  modifyConn cs i (fun c => { c with candidates := c.candidates ++ [cand] })

/-- `pc.set_local_description(..)` on the connection at arena index `i`. -/
def setLocalDesc (cs : List Conn) (i : ℕ) (d : String) : List Conn :=
  modifyConn cs i (fun c => { c with localDesc := some d })

/-- `pc.set_remote_description(..)` on the connection at arena index `i`. -/
def setRemoteDesc (cs : List Conn) (i : ℕ) (d : String) : List Conn :=
  modifyConn cs i (fun c => { c with remoteDesc := some d })

/-- Close every connection referenced by the peer registry (the
`for (_, pc) in peers.drain() { pc.close() }` loops of `manager.rs`). -/
def closeAll (cs : List Conn) (peers : List (String × ℕ)) : List Conn :=
  peers.foldl (fun acc e => closeConn acc e.2) cs

/-- The `VoiceManager` state (`manager.rs` lines 78–94) together with the
observable artefacts of its background tasks:

* `peers` / `conns` — the `peers: HashMap<String, Arc<RTCPeerConnection>>`
  registry, as an association list into an arena of `Conn` records (arena
  index = creation order);
* `pending_candidates` — the `pending_candidates: HashMap<String, Vec<_>>`
  buffer;
* `events` — everything sent on `event_tx`, in order;
* `encoded_queue` / `next_packet` — the unbounded channel from the
  capture/encode pipeline to the spawned track-feed task, with packets
  numbered in production order;
* `track_writes` — each `track.write_sample` performed by the feed task,
  recorded as `(packet, is_joined, is_muted)` sampled at write time. -/
structure VoiceManager where
  room_id : Option String
  is_joined : Bool
  is_muted : Bool
  local_track : Bool
  peers : List (String × ℕ)
  conns : List Conn
  pending_candidates : List (String × List String)
  audio_engine : AudioEngine
  events : List VoiceEvent
  encoded_queue : List ℕ
  next_packet : ℕ
  track_writes : List (ℕ × Bool × Bool)
  deriving DecidableEq, Repr

/-- `VoiceManager::new` (`manager.rs` lines 97–121). -/
def VoiceManager.init : VoiceManager :=
  { room_id := none, is_joined := false, is_muted := false, local_track := false,
    peers := [], conns := [], pending_candidates := [],
    audio_engine := AudioEngine.new, events := [],
    encoded_queue := [], next_packet := 0, track_writes := [] }

/-- `VoiceManager::create_peer_connection` (`manager.rs` lines 274–422):
close and remove any existing connection for the peer, remove its stale
output stream, create a fresh connection, insert it into the registry, and
when `initiate_offer` holds set a local offer and emit the outbound `offer`
signal.  Returns the arena index of the new connection.  The SDP payload
produced by `create_offer` is modelled by the string `"offer"`. -/
def VoiceManager.create_peer_connection (st : VoiceManager) (remote_user_id : String)
    (initiate_offer : Bool) : VoiceManager × ℕ :=
  let st1 := match lookupA st.peers remote_user_id with
    | some cid => { st with peers := removeKey st.peers remote_user_id,
                            conns := closeConn st.conns cid }
    | none => st
  let st2 := { st1 with audio_engine := st1.audio_engine.remove_peer_stream remote_user_id }
  let cid := st2.conns.length
  let st3 := { st2 with conns := st2.conns ++ [Conn.fresh] }
  let st4 := { st3 with peers := st3.peers ++ [(remote_user_id, cid)] }
  let st5 :=
    if initiate_offer then
      let st5a := { st4 with conns := setLocalDesc st4.conns cid "offer" }
      { st5a with events := st5a.events ++ [VoiceEvent.Signal (some remote_user_id) "offer" "offer"] }
    else st4
  (st5, cid)

/-- `VoiceManager::join_voice` (`manager.rs` lines 190–272).  `mic_ok`
models whether `AudioEngine::start_capture` succeeds; on failure the error
message `format!("Failed to start microphone: {}", e)` is modelled by a
fixed string. -/
def VoiceManager.join_voice (st : VoiceManager) (room_id : String) (mic_ok : Bool) :
    VoiceManager :=
  let st1 := { st with events := st.events ++ [VoiceEvent.Connecting] }
  let st2 := { st1 with audio_engine := st1.audio_engine.reset }
  let st3 := { st2 with local_track := false }
  let st4 := { st3 with pending_candidates := [] }
  let st5 := { st4 with conns := closeAll st4.conns st4.peers, peers := [] }
  let st6 := { st5 with room_id := some room_id, is_joined := true }
  if mic_ok then
    let st7 := { st6 with audio_engine := { st6.audio_engine with capture_open := true } }
    let st8 := { st7 with local_track := true }
    let st9 := { st8 with events := st8.events ++ [VoiceEvent.Signal none "join_voice" ""] }
    { st9 with events := st9.events ++ [VoiceEvent.Connected] }
  else
    let st7 := { st6 with is_joined := false, room_id := none }
    { st7 with events := st7.events ++ [VoiceEvent.ConnectionFailed "Failed to start microphone"] }

/-- `VoiceManager::leave_voice` (`manager.rs` lines 424–470). -/
def VoiceManager.leave_voice (st : VoiceManager) : VoiceManager :=
  let st1 := { st with is_joined := false }
  let st2 := if st1.room_id.isSome then
      { st1 with events := st1.events ++ [VoiceEvent.Signal none "leave_voice" ""] }
    else st1
  let st3 := { st2 with audio_engine := st2.audio_engine.reset }
  let st4 := { st3 with local_track := false }
  let st5 := { st4 with pending_candidates := [] }
  let st6 := { st5 with conns := closeAll st5.conns st5.peers,
                        events := st5.events ++
                          st5.peers.map (fun (e : String × ℕ) => VoiceEvent.PeerDisconnected e.1),
                        peers := [] }
  let st7 := { st6 with is_muted := false }
  let st8 := { st7 with room_id := none }
  let st9 := { st8 with events := st8.events ++ [VoiceEvent.TxActivity false] }
  let st10 := { st9 with events := st9.events ++ [VoiceEvent.MuteStateChanged false] }
  { st10 with events := st10.events ++ [VoiceEvent.Disconnected] }

/-- The `VoiceCommand::Mute` handler (`manager.rs` lines 139–142). -/
def VoiceManager.set_mute (st : VoiceManager) (muted : Bool) : VoiceManager :=
  { st with is_muted := muted, events := st.events ++ [VoiceEvent.MuteStateChanged muted] }

/-- `VoiceManager::handle_signal` (`manager.rs` lines 472–540).  Payloads
are carried verbatim; the SDP answer produced by `create_answer` is
modelled by the string `"answer"`. -/
def VoiceManager.handle_signal (st : VoiceManager) (sender_id signal_type data : String) :
    VoiceManager :=
  if signal_type = "join_voice" then
    (st.create_peer_connection sender_id true).1
  else if signal_type = "offer" then
    let p := st.create_peer_connection sender_id false
    let st1 := p.1
    let cid := p.2
    let st2 := { st1 with conns := setRemoteDesc st1.conns cid data }
    let st3 := match lookupA st2.pending_candidates sender_id with
      | some cands =>
          let st3a := { st2 with pending_candidates :=
                          removeKey st2.pending_candidates sender_id }
          cands.foldl (fun (s : VoiceManager) c => { s with conns := pushCandidate s.conns cid c }) st3a
      | none => st2
    let st4 := { st3 with conns := setLocalDesc st3.conns cid "answer" }
    { st4 with events := st4.events ++ [VoiceEvent.Signal (some sender_id) "answer" "answer"] }
  else if signal_type = "answer" then
    match lookupA st.peers sender_id with
    | some cid => { st with conns := setRemoteDesc st.conns cid data }
    | none => st
  else if signal_type = "candidate" then
    match lookupA st.peers sender_id with
    | some cid => { st with conns := pushCandidate st.conns cid data }
    | none => { st with pending_candidates := pendingPush st.pending_candidates sender_id data }
  else if signal_type = "leave_voice" then
    let st1 := match lookupA st.peers sender_id with
      | some cid => { st with peers := removeKey st.peers sender_id,
                              conns := closeConn st.conns cid }
      | none => st
    let st2 := { st1 with audio_engine := st1.audio_engine.remove_peer_stream sender_id }
    let st3 := { st2 with pending_candidates := removeKey st2.pending_candidates sender_id }
    { st3 with events := st3.events ++ [VoiceEvent.PeerDisconnected sender_id] }
  else st

/-- The `InternalCmd::CleanupPeer` handler (`manager.rs` lines 156–169). -/
def VoiceManager.cleanup_peer (st : VoiceManager) (peer_id : String) : VoiceManager :=
  let st1 := match lookupA st.peers peer_id with
    | some cid => { st with peers := removeKey st.peers peer_id,
                            conns := closeConn st.conns cid }
    | none => st
  let st2 := { st1 with audio_engine := st1.audio_engine.remove_peer_stream peer_id }
  { st2 with pending_candidates := removeKey st2.pending_candidates peer_id }

/-- One step of the capture/encode pipeline (`audio.rs` lines 283–312): while
the capture stream is open, a fully encoded packet is pushed onto the
unbounded channel read by the track-feed task. -/
def VoiceManager.capture_tick (st : VoiceManager) : VoiceManager :=
  if st.audio_engine.capture_open then
    { st with encoded_queue := st.encoded_queue ++ [st.next_packet],
              next_packet := st.next_packet + 1 }
  else st

/-- One iteration of the spawned track-feed task (`manager.rs` lines
240–259): receive the next encoded packet; when muted, skip it; otherwise
emit `TxActivity(true)` and write the sample to the local track.  The flags
recorded in `track_writes` are the values of `is_joined` / `is_muted` at
the moment of the write. -/
def VoiceManager.feed_tick (st : VoiceManager) : VoiceManager :=
  match st.encoded_queue with
  | [] => st
  | pkt :: rest =>
    let st1 := { st with encoded_queue := rest }
    if st1.is_muted then st1
    else
      let st2 := { st1 with events := st1.events ++ [VoiceEvent.TxActivity true] }
      { st2 with track_writes := st2.track_writes ++ [(pkt, st2.is_joined, st2.is_muted)] }

/-- The `on_track` callback (`manager.rs` lines 377–402): fires when a
remote media track arrives on the (live) connection of `peer_id`; returns
early when not joined, otherwise starts that peer's playback stream.
Tracks are delivered by the peer's own connection, so the action only
applies while the peer has a registry entry. -/
def VoiceManager.track_arrives (st : VoiceManager) (peer_id : String) : VoiceManager :=
  if (lookupA st.peers peer_id).isSome then
    if st.is_joined then
      { st with audio_engine := st.audio_engine.start_playback_for_peer peer_id }
    else st
  else st

/-- The atomic actions serialised through the manager's `select!` loop
(`manager.rs` lines 128–187) plus the observable background-task steps. -/
inductive Act where
  | join (room : String) (mic_ok : Bool)
  | leave
  | mute (b : Bool)
  | signal (sender ty data : String)
  | cleanup (peer : String)
  | captureTick
  | feedTick
  | trackArrives (peer : String)
  deriving DecidableEq, Repr

/-- Interpret one action. -/
def VoiceManager.step (st : VoiceManager) : Act → VoiceManager
  | .join r ok => st.join_voice r ok
  | .leave => st.leave_voice
  | .mute b => st.set_mute b
  | .signal s t d => st.handle_signal s t d
  | .cleanup p => st.cleanup_peer p
  | .captureTick => st.capture_tick
  | .feedTick => st.feed_tick
  | .trackArrives p => st.track_arrives p

/-- Run a sequence of actions from the freshly constructed manager. -/
def VoiceManager.runActs (acts : List Act) : VoiceManager :=
  acts.foldl VoiceManager.step VoiceManager.init

/-- Number of registry entries stored under a peer id. -/
def countKey (l : List (String × ℕ)) (k : String) : ℕ :=
  (l.filter (fun e => e.1 = k)).length

/-- Whether the connection at arena index `i` is closed (out-of-range
indices count as closed: no live connection exists there). -/
def connClosed (cs : List Conn) (i : ℕ) : Bool :=
  match cs.get? i with
  | some c => c.closed
  | none => true

/-- The applied-candidate list of the peer's current connection, when the
peer has a registry entry. -/
def connCandidates (st : VoiceManager) (p : String) : Option (List String) :=
  match lookupA st.peers p with
  | some cid => (st.conns.get? cid).map Conn.candidates
  | none => none

/-- Structural invariant of every reachable manager state: registry keys
are unique (it models a `HashMap`), every playback stream is owned by a
registered peer, playback streams are per-peer (no duplicates), and every
registry entry points into the connection arena. -/
def MInv (st : VoiceManager) : Prop :=
  (st.peers.map Prod.fst).Nodup ∧
  st.audio_engine.playback_peers.Nodup ∧
  (∀ p ∈ st.audio_engine.playback_peers, (lookupA st.peers p).isSome = true) ∧
  (∀ e ∈ st.peers, e.2 < st.conns.length)

theorem normalizeFraction_add (f : ℚ) (idx : ℤ) :
    (normalizeFraction f idx).1 + ((normalizeFraction f idx).2 : ℚ) = f + (idx : ℚ) := by
  induction f, idx using normalizeFraction.induct with
  | case1 f idx h ih =>
    rw [normalizeFraction, dif_pos h]
    push_cast at ih ⊢
    linarith [ih]
  | case2 f idx h =>
    rw [normalizeFraction, dif_neg h]

theorem normalizeFraction_lt_one (f : ℚ) (idx : ℤ) :
    (normalizeFraction f idx).1 < 1 := by
  induction f, idx using normalizeFraction.induct with
  | case1 f idx h ih => rw [normalizeFraction, dif_pos h]; exact ih
  | case2 f idx h => rw [normalizeFraction, dif_neg h]; simpa using lt_of_not_le h

theorem normalizeFraction_nonneg (f : ℚ) (idx : ℤ) (h0 : 0 ≤ f) :
    0 ≤ (normalizeFraction f idx).1 := by
  induction f, idx using normalizeFraction.induct with
  | case1 f idx h ih => rw [normalizeFraction, dif_pos h]; exact ih (by linarith)
  | case2 f idx h => rw [normalizeFraction, dif_neg h]; exact h0

theorem normalizeFraction_idx_le (f : ℚ) (idx : ℤ) :
    idx ≤ (normalizeFraction f idx).2 := by
  induction f, idx using normalizeFraction.induct with
  | case1 f idx h ih => rw [normalizeFraction, dif_pos h]; omega
  | case2 f idx h => rw [normalizeFraction, dif_neg h]

/-- Fuel monotonicity of the interpolation loop: a halted run is stable
under extra fuel. -/
theorem resLoop_mono (input : List ℚ) (ls rq : ℚ) :
    ∀ n m idx f out r, resLoop input ls rq n idx f out = some r →
      resLoop input ls rq (n + m) idx f out = some r := by
  intro n
  induction n with
  | zero => intro m idx f out r h; simp [resLoop] at h
  | succ n ih =>
    intro m idx f out r h
    rw [resLoop] at h
    have : n + 1 + m = (n + m) + 1 := by omega
    rw [this, resLoop]
    by_cases hb : (input.length : ℤ) ≤ idx + 1
    · rw [if_pos hb] at h ⊢; exact h
    · rw [if_neg hb] at h ⊢
      exact ih m _ _ _ _ h

/-- The output accumulator of `resLoop` is a pure prefix. -/
theorem resLoop_acc (input : List ℚ) (ls rq : ℚ) :
    ∀ n idx f out, resLoop input ls rq n idx f out =
      (resLoop input ls rq n idx f []).map (fun r => (out ++ r.1, r.2)) := by
  intro n
  induction n with
  | zero => intro idx f out; simp [resLoop]
  | succ n ih =>
    intro idx f out
    rw [resLoop, resLoop]
    by_cases hb : (input.length : ℤ) ≤ idx + 1
    · rw [if_pos hb, if_pos hb]; simp
    · rw [if_neg hb, if_neg hb]
      rw [ih _ _ (out ++ _), ih _ _ ([] ++ _)]
      cases resLoop input ls rq n (normalizeFraction (f + rq) idx).2
        (normalizeFraction (f + rq) idx).1 [] with
      | none => simp
      | some r => simp

/-- Invariants carried by a halted loop run: the final fraction stays in
`[0,1)`, the final index never decreases, and the loop only exits once the
interpolation window has passed the end of the input. -/
theorem resLoop_post (input : List ℚ) (ls rq : ℚ) (hr : 0 ≤ rq) :
    ∀ n idx f out o i' f', 0 ≤ f → f < 1 →
      resLoop input ls rq n idx f out = some (o, i', f') →
      (0 ≤ f' ∧ f' < 1) ∧ idx ≤ i' ∧ (input.length : ℤ) ≤ i' + 1 := by
  intro n
  induction n with
  | zero => intro idx f out o i' f' _ _ h; simp [resLoop] at h
  | succ n ih =>
    intro idx f out o i' f' h0 h1 h
    rw [resLoop] at h
    by_cases hb : (input.length : ℤ) ≤ idx + 1
    · rw [if_pos hb] at h
      obtain ⟨rfl, rfl, rfl⟩ := by
        simpa using h
      exact ⟨⟨h0, h1⟩, le_refl _, hb⟩
    · rw [if_neg hb] at h
      have hnn : 0 ≤ (normalizeFraction (f + rq) idx).1 :=
        normalizeFraction_nonneg _ _ (by linarith)
      have hlt : (normalizeFraction (f + rq) idx).1 < 1 := normalizeFraction_lt_one _ _
      have hidx : idx ≤ (normalizeFraction (f + rq) idx).2 := normalizeFraction_idx_le _ _
      obtain ⟨hf, hi, hl⟩ := ih _ _ _ _ _ _ hnn hlt h
      exact ⟨hf, le_trans hidx hi, hl⟩

/-- The index returned by the inner `while` is a pure offset: shifting the
input index shifts the output index by the same amount. -/
theorem normalizeFraction_shift (f : ℚ) (i : ℤ) :
    ∀ k, normalizeFraction f (i + k) =
      ((normalizeFraction f i).1, (normalizeFraction f i).2 + k) := by
  induction f, i using normalizeFraction.induct with
  | case1 f i h ih =>
    intro k
    conv_lhs => rw [normalizeFraction]
    conv_rhs => rw [normalizeFraction]
    rw [dif_pos h, dif_pos h]
    have : i + k + 1 = i + 1 + k := by omega
    rw [this, ih k]
  | case2 f i h =>
    intro k
    conv_lhs => rw [normalizeFraction]
    conv_rhs => rw [normalizeFraction]
    rw [dif_neg h, dif_neg h]

/-- Once the loop index has passed the first chunk `a`, running on `a ++ b`
is the same as running on `b` with the index translated by `a.length` and
the held sample replaced by `a`'s last sample. -/
theorem resLoop_shift (a b : List ℚ) (ls rq : ℚ) :
    ∀ n idx f, (a.length : ℤ) ≤ idx + 1 →
      resLoop (a ++ b) ls rq n idx f [] =
      (resLoop b (a.getLastD ls) rq n (idx - a.length) f []).map
        (fun r => (r.1, r.2.1 + (a.length : ℤ), r.2.2)) := by
  intro n
  induction n with
  | zero => intro idx f _; simp [resLoop]
  | succ n ih =>
    intro idx f hidx
    rw [resLoop, resLoop]
    have hlen : ((a ++ b).length : ℤ) ≤ idx + 1 ↔
        (b.length : ℤ) ≤ (idx - a.length) + 1 := by
      simp only [List.length_append]
      omega
    by_cases hb : (b.length : ℤ) ≤ (idx - a.length) + 1
    · rw [if_pos (hlen.mpr hb), if_pos hb]
      have he : idx - (a.length : ℤ) + (a.length : ℤ) = idx := by omega
      simp [he]
    · rw [if_neg (fun hc => hb (hlen.mp hc)), if_neg hb]
      have hs0 : (if idx = -1 then ls else (a ++ b).getD idx.toNat 0) =
          (if idx - (a.length : ℤ) = -1 then a.getLastD ls
           else b.getD (idx - a.length).toNat 0) := by
        by_cases hj : idx - (a.length : ℤ) = -1
        · rw [if_pos hj]
          rcases Nat.eq_zero_or_pos a.length with h0 | h0
          · have ha : a = [] := List.length_eq_zero.mp h0
            subst ha
            simp only [List.length_nil, Nat.cast_zero, sub_zero] at hj
            rw [if_pos hj]
            rfl
          · have hne : ¬ idx = -1 := by omega
            rw [if_neg hne]
            have hidxv : idx.toNat = a.length - 1 := by omega
            rw [hidxv]
            rw [List.getD_eq_getElem?_getD, List.getElem?_append_left (by omega)]
            rw [List.getLastD_eq_getLast?, List.getLast?_eq_getElem?,
              List.getElem?_eq_getElem (show a.length - 1 < a.length by omega)]
            simp
        · rw [if_neg hj]
          have hne : ¬ idx = -1 := by omega
          rw [if_neg hne]
          rw [List.getD_eq_getElem?_getD, List.getD_eq_getElem?_getD,
            List.getElem?_append_right (by omega)]
          congr 2
          omega
      have hs1 : (a ++ b).getD (idx + 1).toNat 0 =
          b.getD ((idx - a.length) + 1).toNat 0 := by
        rw [List.getD_eq_getElem?_getD, List.getD_eq_getElem?_getD,
          List.getElem?_append_right (by omega)]
        congr 2
        omega
      rw [hs0, hs1]
      have hnf : normalizeFraction (f + rq) idx =
          ((normalizeFraction (f + rq) (idx - a.length)).1,
           (normalizeFraction (f + rq) (idx - a.length)).2 + a.length) := by
        have := normalizeFraction_shift (f + rq) (idx - a.length) a.length
        have harg : idx - (a.length : ℤ) + a.length = idx := by omega
        rw [harg] at this
        exact this
      rw [hnf]
      have hidx' : (a.length : ℤ) ≤ ((normalizeFraction (f + rq) (idx - a.length)).2 + a.length) + 1 := by
        have h1 : idx - (a.length : ℤ) ≤ (normalizeFraction (f + rq) (idx - a.length)).2 :=
          normalizeFraction_idx_le _ _
        omega
      rw [resLoop_acc _ _ _ _ _ _ ([] ++ _), ih _ _ hidx']
      have harg2 : (normalizeFraction (f + rq) (idx - a.length)).2 + (a.length : ℤ) - a.length =
          (normalizeFraction (f + rq) (idx - a.length)).2 := by omega
      rw [harg2]
      rw [resLoop_acc b _ _ _ _ _ ([] ++ _)]
      cases resLoop b (a.getLastD ls) rq n (normalizeFraction (f + rq) (idx - a.length)).2
        (normalizeFraction (f + rq) (idx - a.length)).1 [] with
      | none => simp
      | some r => simp

/-- Composing two halted runs: a run over chunk `a` followed by a run over
chunk `b` (with the translated index and `a`'s last sample held) is a halted
run over `a ++ b` producing the concatenated output. -/
theorem resLoop_append_some (a b : List ℚ) (ls rq : ℚ) :
    ∀ fuelA fuelB idx f o1 i1 f1 o2 i2 f2, -1 ≤ idx →
      resLoop a ls rq fuelA idx f [] = some (o1, i1, f1) →
      resLoop b (a.getLastD ls) rq fuelB (i1 - a.length) f1 [] = some (o2, i2, f2) →
      resLoop (a ++ b) ls rq (fuelA + fuelB) idx f [] =
        some (o1 ++ o2, i2 + a.length, f2) := by
  intro fuelA
  induction fuelA with
  | zero => intro fuelB idx f o1 i1 f1 o2 i2 f2 _ h1 _; simp [resLoop] at h1
  | succ fuelA ih =>
    intro fuelB idx f o1 i1 f1 o2 i2 f2 hm1 h1 h2
    rw [resLoop] at h1
    by_cases hb : (a.length : ℤ) ≤ idx + 1
    · rw [if_pos hb] at h1
      obtain ⟨rfl, rfl, rfl⟩ := by simpa using h1
      have hs := resLoop_shift a b ls rq fuelB idx f hb
      rw [h2] at hs
      simp only [Option.map_some'] at hs
      have hfe : fuelA + 1 + fuelB = fuelB + (fuelA + 1) := by omega
      rw [hfe]
      have hm := resLoop_mono (a ++ b) ls rq fuelB (fuelA + 1) idx f [] _ hs
      simpa using hm
    · rw [if_neg hb] at h1
      rw [resLoop_acc] at h1
      rcases hres : resLoop a ls rq fuelA (normalizeFraction (f + rq) idx).2
          (normalizeFraction (f + rq) idx).1 [] with _ | r
      · rw [hres] at h1; simp at h1
      · obtain ⟨ro, ri, rf⟩ := r
        rw [hres] at h1
        simp only [Option.map_some'] at h1
        obtain ⟨rfl, rfl, rfl⟩ := by simpa [Prod.ext_iff] using h1
        have hm1' : -1 ≤ (normalizeFraction (f + rq) idx).2 :=
          le_trans hm1 (normalizeFraction_idx_le _ _)
        have ihres := ih fuelB _ _ _ _ _ _ _ _ hm1' hres h2
        have hfe : fuelA + 1 + fuelB = (fuelA + fuelB) + 1 := by omega
        rw [hfe, resLoop]
        have hb' : ¬ ((a ++ b).length : ℤ) ≤ idx + 1 := by
          simp only [List.length_append]
          push_cast
          omega
        rw [if_neg hb']
        have hs0 : (if idx = -1 then ls else (a ++ b).getD idx.toNat 0) =
            (if idx = -1 then ls else a.getD idx.toNat 0) := by
          by_cases hi : idx = -1
          · simp [hi]
          · rw [if_neg hi, if_neg hi, List.getD_eq_getElem?_getD,
              List.getD_eq_getElem?_getD, List.getElem?_append_left (by omega)]
        have hs1 : (a ++ b).getD (idx + 1).toNat 0 = a.getD (idx + 1).toNat 0 := by
          rw [List.getD_eq_getElem?_getD, List.getD_eq_getElem?_getD,
            List.getElem?_append_left (by omega)]
        rw [hs0, hs1]
        rw [resLoop_acc, ihres]
        simp

/-- Fuel sufficiency: with a positive ratio, `n + 1` iterations suffice as
soon as `n` ratio-steps carry the potential `idx + fraction` past the end
of the input. -/
theorem resLoop_some_of_fuel (input : List ℚ) (ls rq : ℚ) (hr : 0 < rq) :
    ∀ (n : ℕ) (idx : ℤ) (f : ℚ) (out : List ℚ), 0 ≤ f → f < 1 →
      (input.length : ℚ) ≤ (idx : ℚ) + f + (n : ℚ) * rq →
      ∃ r, resLoop input ls rq (n + 1) idx f out = some r := by
  intro n
  induction n with
  | zero =>
    intro idx f out h0 h1 hpot
    have hb : (input.length : ℤ) ≤ idx + 1 := by
      have : (input.length : ℚ) < (idx : ℚ) + 1 := by push_cast at hpot ⊢; linarith
      exact_mod_cast le_of_lt (by exact_mod_cast this)
    rw [resLoop, if_pos hb]
    exact ⟨_, rfl⟩
  | succ n ih =>
    intro idx f out h0 h1 hpot
    rw [resLoop]
    by_cases hb : (input.length : ℤ) ≤ idx + 1
    · rw [if_pos hb]; exact ⟨_, rfl⟩
    · rw [if_neg hb]
      apply ih
      · exact normalizeFraction_nonneg _ _ (by linarith)
      · exact normalizeFraction_lt_one _ _
      · have hadd := normalizeFraction_add (f + rq) idx
        push_cast at hpot ⊢
        linarith [hadd]

/-- With ratio `0` (e.g. `from_rate = 0`) and a nonempty input the loop
never advances: every amount of fuel is exhausted. -/
theorem resLoop_zero_ratio_none (input : List ℚ) (ls : ℚ) (hlen : 1 ≤ input.length) :
    ∀ fuel out, resLoop input ls 0 fuel (-1) 0 out = none := by
  intro fuel
  induction fuel with
  | zero => intro out; simp [resLoop]
  | succ fuel ih =>
    intro out
    rw [resLoop]
    have hb : ¬ (input.length : ℤ) ≤ (-1) + 1 := by
      push_cast
      omega
    rw [if_neg hb]
    have hnf : normalizeFraction (0 + 0) (-1) = (0, -1) := by
      rw [normalizeFraction]
      norm_num
    rw [hnf]
    exact ih _

/-- The held last sample composes across concatenation. -/
theorem getLastD_append (a b : List ℚ) (d : ℚ) :
    (a ++ b).getLastD d = b.getLastD (a.getLastD d) := by
  cases hb : b with
  | nil => simp
  | cons x xs =>
    rw [List.getLastD_eq_getLast?, List.getLastD_eq_getLast?,
      List.getLast?_append_of_ne_nil a (by simp),
      List.getLast?_eq_getLast (x :: xs) (by simp)]
    rfl

/-- The potential bound discharged by `processFuel`: the fuel chosen by
`process` always satisfies the hypothesis of `resLoop_some_of_fuel`. -/
theorem processFuel_pot (st : StatefulResampler) (len : ℕ) (f : ℚ)
    (h1 : 1 ≤ st.from_rate) (h2 : 1 ≤ st.to_rate) (hf : 0 ≤ f) (drop : ℕ) :
    (len : ℚ) ≤ (((-1 + drop : ℤ)) : ℚ) + f +
      (((len + 1) * st.to_rate : ℕ) : ℚ) * ((st.from_rate : ℚ) / (st.to_rate : ℚ)) := by
  have hto : (0 : ℚ) < (st.to_rate : ℚ) := by exact_mod_cast h2
  have hfrom : (1 : ℚ) ≤ (st.from_rate : ℚ) := by exact_mod_cast h1
  have hkey : (((len + 1) * st.to_rate : ℕ) : ℚ) * ((st.from_rate : ℚ) / (st.to_rate : ℚ)) =
      ((len : ℚ) + 1) * (st.from_rate : ℚ) := by
    push_cast
    field_simp
    ring
  rw [hkey]
  have hge : ((len : ℚ) + 1) * (st.from_rate : ℚ) ≥ ((len : ℚ) + 1) * 1 := by
    apply mul_le_mul_of_nonneg_left hfrom
    positivity
  have hd : (0 : ℚ) ≤ (((-1 + drop : ℤ)) : ℚ) + 1 := by
    have hdn : (0 : ℚ) ≤ (drop : ℚ) := by positivity
    push_cast
    linarith
  push_cast at hd ⊢
  linarith

/-- Chunked/whole composition of `process`: from any in-invariant state with
nondegenerate rates, processing `a` then `b` equals processing `a ++ b`,
sample-for-sample, with identical final state. -/
theorem process_append_aux (st : StatefulResampler) (a b : List ℚ)
    (hinv : st.inv) (h1 : 1 ≤ st.from_rate) (h2 : 1 ≤ st.to_rate) :
    ∃ o1 st1 o2 st2, st.process a = some (o1, st1) ∧ st1.process b = some (o2, st2) ∧
      st.process (a ++ b) = some (o1 ++ o2, st2) := by
  by_cases heq : st.from_rate = st.to_rate
  · exact ⟨a, st, b, st, by rw [StatefulResampler.process, if_pos heq],
      by rw [StatefulResampler.process, if_pos heq],
      by rw [StatefulResampler.process, if_pos heq]⟩
  · have hrpos : (0 : ℚ) < (st.from_rate : ℚ) / (st.to_rate : ℚ) := by
      have ha : (0 : ℚ) < (st.from_rate : ℚ) := by exact_mod_cast h1
      have hb : (0 : ℚ) < (st.to_rate : ℚ) := by exact_mod_cast h2
      exact div_pos ha hb
    -- chunk a
    obtain ⟨⟨o1, i1, f1⟩, hra⟩ :=
      resLoop_some_of_fuel a st.last_sample ((st.from_rate : ℚ) / (st.to_rate : ℚ)) hrpos
        ((a.length + 1) * st.to_rate) (-1 + st.samples_to_drop) st.fraction []
        hinv.1 hinv.2 (processFuel_pot st a.length st.fraction h1 h2 hinv.1 st.samples_to_drop)
    have hra' : resLoop a st.last_sample ((st.from_rate : ℚ) / (st.to_rate : ℚ))
        (processFuel st a) (-1 + st.samples_to_drop) st.fraction [] = some (o1, i1, f1) := hra
    obtain ⟨⟨hf0, hf1⟩, hile, hbreak⟩ :=
      resLoop_post a st.last_sample _ (le_of_lt hrpos) _ _ _ _ _ _ _ hinv.1 hinv.2 hra'
    set st1 : StatefulResampler :=
      { st with last_sample := a.getLastD st.last_sample, fraction := f1,
                samples_to_drop := (i1 - (a.length : ℤ) + 1).toNat } with hst1
    have hpa : st.process a = some (o1, st1) := by
      simp only [StatefulResampler.process, if_neg heq]
      rw [hra']
    -- chunk b
    obtain ⟨⟨o2, i2, f2⟩, hrb⟩ :=
      resLoop_some_of_fuel b st1.last_sample ((st.from_rate : ℚ) / (st.to_rate : ℚ)) hrpos
        ((b.length + 1) * st.to_rate) (-1 + st1.samples_to_drop) st1.fraction []
        hf0 hf1 (processFuel_pot st b.length f1 h1 h2 hf0 st1.samples_to_drop)
    have hrb' : resLoop b st1.last_sample ((st1.from_rate : ℚ) / (st1.to_rate : ℚ))
        (processFuel st1 b) (-1 + st1.samples_to_drop) st1.fraction [] = some (o2, i2, f2) := hrb
    set st2 : StatefulResampler :=
      { st1 with last_sample := b.getLastD st1.last_sample, fraction := f2,
                 samples_to_drop := (i2 - (b.length : ℤ) + 1).toNat } with hst2
    have hpb : st1.process b = some (o2, st2) := by
      simp only [StatefulResampler.process, if_neg heq]
      rw [hrb']
    -- translate the start index of the b-run
    have hidx0b : (-1 + (st1.samples_to_drop : ℤ)) = i1 - a.length := by
      have := Int.toNat_of_nonneg (show (0 : ℤ) ≤ i1 - (a.length : ℤ) + 1 by omega)
      simp only [hst1]
      omega
    have hrb2 : resLoop b (a.getLastD st.last_sample) ((st.from_rate : ℚ) / (st.to_rate : ℚ))
        ((b.length + 1) * st.to_rate + 1) (i1 - a.length) f1 [] = some (o2, i2, f2) := by
      rw [← hidx0b]
      exact hrb
    -- composed run on a ++ b
    have happ := resLoop_append_some a b st.last_sample _
      ((a.length + 1) * st.to_rate + 1) ((b.length + 1) * st.to_rate + 1)
      (-1 + st.samples_to_drop) st.fraction o1 i1 f1 o2 i2 f2 (by omega) hra hrb2
    -- the whole run at its own fuel
    obtain ⟨⟨ow, iw, fw⟩, hrw⟩ :=
      resLoop_some_of_fuel (a ++ b) st.last_sample ((st.from_rate : ℚ) / (st.to_rate : ℚ)) hrpos
        (((a ++ b).length + 1) * st.to_rate) (-1 + st.samples_to_drop) st.fraction []
        hinv.1 hinv.2 (processFuel_pot st (a ++ b).length st.fraction h1 h2 hinv.1 st.samples_to_drop)
    -- determinism: the two whole-run results agree
    have hdet : (ow, iw, fw) = (o1 ++ o2, i2 + (a.length : ℤ), f2) := by
      have h1m := resLoop_mono (a ++ b) st.last_sample _
        ((((a ++ b).length + 1) * st.to_rate) + 1)
        (((a.length + 1) * st.to_rate + 1) + ((b.length + 1) * st.to_rate + 1)) _ _ _ _ hrw
      have h2m := resLoop_mono (a ++ b) st.last_sample _
        (((a.length + 1) * st.to_rate + 1) + ((b.length + 1) * st.to_rate + 1))
        ((((a ++ b).length + 1) * st.to_rate) + 1) _ _ _ _ happ
      rw [Nat.add_comm] at h2m
      exact Option.some.inj (h1m.symm.trans h2m)
    obtain ⟨how, hiw, hfw⟩ : ow = o1 ++ o2 ∧ iw = i2 + (a.length : ℤ) ∧ fw = f2 := by
      simpa [Prod.ext_iff] using hdet
    refine ⟨o1, st1, o2, st2, hpa, hpb, ?_⟩
    have hrw' : resLoop (a ++ b) st.last_sample ((st.from_rate : ℚ) / (st.to_rate : ℚ))
        (processFuel st (a ++ b)) (-1 + st.samples_to_drop) st.fraction [] =
        some (ow, iw, fw) := hrw
    simp only [StatefulResampler.process, if_neg heq]
    rw [hrw']
    subst how hiw hfw
    have hlast : (a ++ b).getLastD st.last_sample = b.getLastD (a.getLastD st.last_sample) :=
      getLastD_append a b st.last_sample
    have hdrop : (i2 + (a.length : ℤ)) - ((a ++ b).length : ℤ) + 1 = i2 - (b.length : ℤ) + 1 := by
      simp only [List.length_append]
      push_cast
      omega
    simp only [hst2, hst1, hlast, hdrop]

/-- `process` preserves the phase invariant. -/
theorem process_inv (st : StatefulResampler) (input : List ℚ) (o : List ℚ)
    (st' : StatefulResampler) (hinv : st.inv) (h : st.process input = some (o, st')) :
    st'.inv := by
  rw [StatefulResampler.process] at h
  by_cases heq : st.from_rate = st.to_rate
  · rw [if_pos heq] at h
    obtain ⟨rfl, rfl⟩ := by simpa [Prod.ext_iff] using h
    exact hinv
  · rw [if_neg heq] at h
    simp only [] at h
    rcases hres : resLoop input st.last_sample ((st.from_rate : ℚ) / (st.to_rate : ℚ))
        (processFuel st input) (-1 + st.samples_to_drop) st.fraction [] with _ | r
    · rw [hres] at h; simp at h
    · obtain ⟨ro, ri, rf⟩ := r
      rw [hres] at h
      have hrq : (0 : ℚ) ≤ (st.from_rate : ℚ) / (st.to_rate : ℚ) := by positivity
      obtain ⟨⟨hp0, hp1⟩, _, _⟩ :=
        resLoop_post input st.last_sample _ hrq _ _ _ _ _ _ _ hinv.1 hinv.2 hres
      obtain ⟨rfl, rfl⟩ := by simpa [Prod.ext_iff] using h
      exact ⟨hp0, hp1⟩

/-- Termination half of the termination claim: nondegenerate rates always
halt. -/
theorem process_isSome (st : StatefulResampler) (input : List ℚ)
    (hinv : st.inv) (h1 : 1 ≤ st.from_rate) (h2 : 1 ≤ st.to_rate) :
    (st.process input).isSome = true := by
  by_cases heq : st.from_rate = st.to_rate
  · rw [StatefulResampler.process, if_pos heq]; rfl
  · have hrpos : (0 : ℚ) < (st.from_rate : ℚ) / (st.to_rate : ℚ) := by
      have ha : (0 : ℚ) < (st.from_rate : ℚ) := by exact_mod_cast h1
      have hb : (0 : ℚ) < (st.to_rate : ℚ) := by exact_mod_cast h2
      exact div_pos ha hb
    obtain ⟨⟨o, i, f⟩, hr⟩ :=
      resLoop_some_of_fuel input st.last_sample ((st.from_rate : ℚ) / (st.to_rate : ℚ)) hrpos
        ((input.length + 1) * st.to_rate) (-1 + st.samples_to_drop) st.fraction []
        hinv.1 hinv.2 (processFuel_pot st input.length st.fraction h1 h2 hinv.1 st.samples_to_drop)
    have hr' : resLoop input st.last_sample ((st.from_rate : ℚ) / (st.to_rate : ℚ))
        (processFuel st input) (-1 + st.samples_to_drop) st.fraction [] = some (o, i, f) := hr
    simp only [StatefulResampler.process, if_neg heq]
    rw [hr']
    rfl

/-- Divergence half of the termination claim: `from_rate = 0` with a
different `to_rate` and at least two input samples never halts. -/
theorem process_zero_from_none (t : ℕ) (input : List ℚ) (ht : t ≠ 0)
    (hlen : 2 ≤ input.length) :
    (StatefulResampler.new 0 t).process input = none := by
  have heq : ¬ (StatefulResampler.new 0 t).from_rate = (StatefulResampler.new 0 t).to_rate := by
    simp [StatefulResampler.new]
    omega
  simp only [StatefulResampler.process, if_neg heq]
  have hz : ((StatefulResampler.new 0 t).from_rate : ℚ) / ((StatefulResampler.new 0 t).to_rate : ℚ) = 0 := by
    simp [StatefulResampler.new]
  rw [hz]
  have h0 : (-1 + ((StatefulResampler.new 0 t).samples_to_drop : ℤ)) = -1 := by
    simp [StatefulResampler.new]
  rw [h0]
  have hfr : (StatefulResampler.new 0 t).fraction = 0 := rfl
  rw [hfr]
  rw [resLoop_zero_ratio_none input _ (by omega)]

/-- C3: chunked/whole equivalence of the stateful resampler.  For rates
drawn from the supported set with `from_rate ≠ to_rate`, splitting an input
into two chunks and concatenating the two `process` outputs gives exactly
the single-call output on the concatenated input (exact equality in the
rational-arithmetic idealisation of `f32`), and the final state — the
fractional phase and carry-over — is identical, because it is threaded
from the first chunk into the second, never reset. -/
theorem resampler_chunked_whole_equiv (st : StatefulResampler) (a b : List ℚ)
    (hfrom : st.from_rate ∈ preferred_rates) (hto : st.to_rate ∈ preferred_rates)
    (_hne : st.from_rate ≠ st.to_rate) (hinv : st.inv) :
    ∃ o1 st1 o2 st2, st.process a = some (o1, st1) ∧ st1.process b = some (o2, st2) ∧
      st.process (a ++ b) = some (o1 ++ o2, st2) := by
  have h1 : 1 ≤ st.from_rate := by
    have hc : st.from_rate = 48000 ∨ st.from_rate = 24000 ∨ st.from_rate = 16000 ∨
        st.from_rate = 12000 ∨ st.from_rate = 8000 := by
      simpa [preferred_rates] using hfrom
    rcases hc with h | h | h | h | h <;> omega
  have h2 : 1 ≤ st.to_rate := by
    have hc : st.to_rate = 48000 ∨ st.to_rate = 24000 ∨ st.to_rate = 16000 ∨
        st.to_rate = 12000 ∨ st.to_rate = 8000 := by
      simpa [preferred_rates] using hto
    rcases hc with h | h | h | h | h <;> omega
  exact process_append_aux st a b hinv h1 h2

/-- Witness for C3 at `48000 → 24000` on chunks `[1, 2]` and `[3, 4]`. -/
theorem resampler_chunked_whole_equiv_witness :
    ∃ o1 st1 o2 st2,
      (StatefulResampler.new 48000 24000).process [1, 2] = some (o1, st1) ∧
      st1.process [3, 4] = some (o2, st2) ∧
      (StatefulResampler.new 48000 24000).process ([1, 2] ++ [3, 4]) = some (o1 ++ o2, st2) :=
  resampler_chunked_whole_equiv (StatefulResampler.new 48000 24000) [1, 2] [3, 4]
    (by decide) (by decide) (by decide) ⟨le_refl 0, show (0 : ℚ) < 1 by norm_num⟩

/-- C9: the identity resampler (`from_rate == to_rate`) returns the input
unchanged — the whole input, with no state change, hence no latency. -/
theorem resampler_identity (r : ℕ) (input : List ℚ) :
    (StatefulResampler.new r r).process input = some (input, StatefulResampler.new r r) := by
  rw [StatefulResampler.process,
    if_pos (show (StatefulResampler.new r r).from_rate = (StatefulResampler.new r r).to_rate
      from rfl)]

/-- C10: the interpolation loop terminates for every input and every
in-invariant state whenever both rates are at least 1 (each iteration
advances `idx + fraction` by the positive ratio, so the base index passes
the end of the chunk); and for `from_rate = 0` with `from_rate ≠ to_rate`
and at least two input samples the loop never advances and never halts
(`process` is `none` at every fuel). -/
theorem resampler_termination :
    (∀ (st : StatefulResampler) (input : List ℚ), st.inv → 1 ≤ st.from_rate →
       1 ≤ st.to_rate → (st.process input).isSome = true) ∧
    (∀ (t : ℕ) (input : List ℚ), t ≠ 0 → 2 ≤ input.length →
       (StatefulResampler.new 0 t).process input = none) :=
  ⟨fun st input hinv h1 h2 => process_isSome st input hinv h1 h2,
   fun t input ht hlen => process_zero_from_none t input ht hlen⟩

/-- Witness for C10: termination at `48000 → 8000`, divergence at
`0 → 48000`. -/
theorem resampler_termination_witness :
    ((StatefulResampler.new 48000 8000).process [1, 2, 3]).isSome = true ∧
    (StatefulResampler.new 0 48000).process [1, 2] = none :=
  ⟨resampler_termination.1 (StatefulResampler.new 48000 8000) [1, 2, 3]
      ⟨le_refl 0, show (0 : ℚ) < 1 by norm_num⟩
      (show 1 ≤ 48000 by norm_num) (show 1 ≤ 8000 by norm_num),
   resampler_termination.2 48000 [1, 2] (by norm_num) (by norm_num)⟩

/- ### Association-list facts used by the registry proofs -/

theorem lookupA_removeKey_self {α : Type} (l : List (String × α)) (k : String) :
    lookupA (removeKey l k) k = none := by
  induction l with
  | nil => rfl
  | cons e rest ih =>
    rw [removeKey]
    by_cases he : e.1 = k
    · rw [if_pos he]; exact ih
    · rw [if_neg he, lookupA, if_neg he]; exact ih

theorem lookupA_removeKey_ne {α : Type} (l : List (String × α)) (k k' : String)
    (h : k' ≠ k) : lookupA (removeKey l k) k' = lookupA l k' := by
  induction l with
  | nil => rfl
  | cons e rest ih =>
    rw [removeKey]
    by_cases he : e.1 = k
    · rw [if_pos he, ih]
      conv_rhs => rw [lookupA]
      rw [if_neg (fun hc => h (hc.symm.trans he))]
    · rw [if_neg he, lookupA, lookupA]
      by_cases he' : e.1 = k'
      · rw [if_pos he', if_pos he']
      · rw [if_neg he', if_neg he']; exact ih

theorem removeKey_sublist {α : Type} (l : List (String × α)) (k : String) :
    (removeKey l k).Sublist l := by
  induction l with
  | nil => simp [removeKey]
  | cons e rest ih =>
    rw [removeKey]
    by_cases he : e.1 = k
    · rw [if_pos he]; exact ih.cons e
    · rw [if_neg he]; exact ih.cons₂ e

theorem lookupA_none_iff_not_mem {α : Type} (l : List (String × α)) (k : String) :
    lookupA l k = none ↔ k ∉ l.map Prod.fst := by
  induction l with
  | nil => simp [lookupA]
  | cons e rest ih =>
    rw [lookupA]
    by_cases he : e.1 = k
    · rw [if_pos he]
      simp [he]
    · rw [if_neg he]
      simp only [List.map_cons, List.mem_cons]
      rw [ih]
      constructor
      · intro h hc
        rcases hc with hc | hc
        · exact he hc.symm
        · exact h hc
      · intro h hc
        exact h (Or.inr hc)

theorem lookupA_isSome_iff_mem {α : Type} (l : List (String × α)) (k : String) :
    (lookupA l k).isSome = true ↔ k ∈ l.map Prod.fst := by
  rcases hl : lookupA l k with _ | v
  · rw [lookupA_none_iff_not_mem] at hl
    simp [hl]
  · have : ¬ lookupA l k = none := by rw [hl]; simp
    rw [lookupA_none_iff_not_mem] at this
    simpa using not_not.mp this

theorem lookupA_append_left {α : Type} (l1 l2 : List (String × α)) (k : String) (v : α)
    (h : lookupA l1 k = some v) : lookupA (l1 ++ l2) k = some v := by
  induction l1 with
  | nil => simp [lookupA] at h
  | cons e rest ih =>
    rw [lookupA] at h
    rw [List.cons_append, lookupA]
    by_cases he : e.1 = k
    · rw [if_pos he] at h ⊢; exact h
    · rw [if_neg he] at h ⊢; exact ih h

theorem lookupA_append_right {α : Type} (l1 l2 : List (String × α)) (k : String)
    (h : lookupA l1 k = none) : lookupA (l1 ++ l2) k = lookupA l2 k := by
  induction l1 with
  | nil => rfl
  | cons e rest ih =>
    rw [lookupA] at h
    rw [List.cons_append, lookupA]
    by_cases he : e.1 = k
    · rw [if_pos he] at h; exact absurd h (by simp)
    · rw [if_neg he] at h ⊢; exact ih h

theorem countKey_eq_zero_of_removeKey (l : List (String × ℕ)) (k : String) :
    countKey (removeKey l k) k = 0 := by
  induction l with
  | nil => rfl
  | cons e rest ih =>
    rw [removeKey]
    by_cases he : e.1 = k
    · rw [if_pos he]; exact ih
    · rw [if_neg he, countKey, List.filter_cons]
      simp only [decide_eq_true_eq, if_neg he]
      simpa [countKey] using ih

theorem countKey_append (l1 l2 : List (String × ℕ)) (k : String) :
    countKey (l1 ++ l2) k = countKey l1 k + countKey l2 k := by
  simp [countKey, List.filter_append]

theorem countKey_le_one_of_nodup (l : List (String × ℕ)) (k : String)
    (h : (l.map Prod.fst).Nodup) : countKey l k ≤ 1 := by
  induction l with
  | nil => simp [countKey]
  | cons e rest ih =>
    simp only [List.map_cons, List.nodup_cons] at h
    rw [countKey, List.filter_cons]
    by_cases he : e.1 = k
    · rw [if_pos (by simpa using he)]
      have hz : countKey rest k = 0 := by
        rw [countKey, List.length_eq_zero, List.filter_eq_nil_iff]
        intro x hx
        simp only [decide_eq_true_eq]
        intro hc
        apply h.1
        rw [he, ← hc]
        exact List.mem_map_of_mem Prod.fst hx
      rw [countKey] at hz
      simp [hz]
    · rw [if_neg (by simpa using he)]
      exact ih h.2

/- ### Connection-arena facts -/

theorem modifyConn_length (cs : List Conn) (i : ℕ) (f : Conn → Conn) :
    (modifyConn cs i f).length = cs.length := by
  induction cs generalizing i with
  | nil => rfl
  | cons c rest ih =>
    cases i with
    | zero => rfl
    | succ i => simp [modifyConn, ih]

theorem modifyConn_get?_self (cs : List Conn) (i : ℕ) (f : Conn → Conn) :
    (modifyConn cs i f).get? i = (cs.get? i).map f := by
  induction cs generalizing i with
  | nil => cases i <;> rfl
  | cons c rest ih =>
    cases i with
    | zero => rfl
    | succ i => simpa [modifyConn] using ih i

theorem modifyConn_get?_ne (cs : List Conn) (i j : ℕ) (f : Conn → Conn) (h : j ≠ i) :
    (modifyConn cs i f).get? j = cs.get? j := by
  induction cs generalizing i j with
  | nil => cases i <;> rfl
  | cons c rest ih =>
    cases i with
    | zero =>
      cases j with
      | zero => exact absurd rfl h
      | succ j => rfl
    | succ i =>
      cases j with
      | zero => rfl
      | succ j => simpa [modifyConn] using ih i j (by omega)

theorem get?_concat_length (cs : List Conn) (c : Conn) :
    (cs ++ [c]).get? cs.length = some c := by
  induction cs with
  | nil => rfl
  | cons x rest ih => simp

theorem get?_append_left_conn (cs : List Conn) (c : Conn) (i : ℕ) (h : i < cs.length) :
    (cs ++ [c]).get? i = cs.get? i := by
  induction cs generalizing i with
  | nil => simp at h
  | cons x rest ih =>
    cases i with
    | zero => rfl
    | succ i => simpa using ih i (by simpa using h)

/- ### Fold characterisations -/

/-- The pending-candidate drain loop only touches the connection arena. -/
theorem fold_pushCandidate_state (cid : ℕ) (cands : List String) :
    ∀ st : VoiceManager,
      cands.foldl (fun (s : VoiceManager) c => { s with conns := pushCandidate s.conns cid c }) st =
      { st with conns := cands.foldl (fun cs c => pushCandidate cs cid c) st.conns } := by
  induction cands with
  | nil => intro st; rfl
  | cons c rest ih =>
    intro st
    rw [List.foldl_cons, List.foldl_cons, ih]

/-- Applying the drained candidates appends them, in order, to the
connection's candidate list. -/
theorem fold_pushCandidate_get? (cid : ℕ) (cands : List String) :
    ∀ (cs : List Conn) (c0 : Conn), cs.get? cid = some c0 →
      (cands.foldl (fun cs c => pushCandidate cs cid c) cs).get? cid =
        some { c0 with candidates := c0.candidates ++ cands } := by
  induction cands with
  | nil => intro cs c0 h; simpa using h
  | cons c rest ih =>
    intro cs c0 h
    rw [List.foldl_cons]
    have hstep : (pushCandidate cs cid c).get? cid =
        some { c0 with candidates := c0.candidates ++ [c] } := by
      rw [pushCandidate, modifyConn_get?_self, h, Option.map_some']
    rw [ih _ _ hstep]
    simp

/- ### `handle_signal` branch characterisations -/

/-- A `candidate` for an unregistered peer only appends to that peer's
pending buffer (`manager.rs` lines 514–522); nothing else changes. -/
theorem handle_candidate_absent (st : VoiceManager) (p c : String)
    (h : lookupA st.peers p = none) :
    st.handle_signal p "candidate" c =
      { st with pending_candidates := pendingPush st.pending_candidates p c } := by
  rw [VoiceManager.handle_signal,
    if_neg (by decide : ¬ ("candidate" : String) = "join_voice"),
    if_neg (by decide : ¬ ("candidate" : String) = "offer"),
    if_neg (by decide : ¬ ("candidate" : String) = "answer"),
    if_pos rfl, h]

theorem lookupA_setKey_self {α : Type} (l : List (String × α)) (k : String) (w : α)
    (h : (lookupA l k).isSome = true) : lookupA (setKey l k w) k = some w := by
  induction l with
  | nil => simp [lookupA] at h
  | cons e rest ih =>
    rw [setKey]
    by_cases he : e.1 = k
    · rw [if_pos he, lookupA, if_pos he]
    · rw [if_neg he, lookupA, if_neg he]
      rw [lookupA, if_neg he] at h
      exact ih h

theorem lookupA_setKey_ne {α : Type} (l : List (String × α)) (k k' : String) (w : α)
    (h : k' ≠ k) : lookupA (setKey l k w) k' = lookupA l k' := by
  induction l with
  | nil => rfl
  | cons e rest ih =>
    rw [setKey]
    by_cases he : e.1 = k
    · rw [if_pos he, lookupA, lookupA]
      by_cases he' : e.1 = k'
      · exact absurd (he'.symm.trans he) h
      · rw [if_neg he', if_neg (by rw [he]; exact fun hc => h hc.symm)]
    · rw [if_neg he, lookupA, lookupA]
      by_cases he' : e.1 = k'
      · rw [if_pos he', if_pos he']
      · rw [if_neg he', if_neg he']; exact ih

theorem lookupA_pendingPush_self (l : List (String × List String)) (k v : String) :
    lookupA (pendingPush l k v) k = some ((lookupA l k).getD [] ++ [v]) := by
  rw [pendingPush]
  rcases hl : lookupA l k with _ | vs
  · rw [lookupA_append_right l _ k hl, lookupA, if_pos rfl]
    rfl
  · rw [lookupA_setKey_self l k _ (by rw [hl]; rfl)]
    rfl

theorem lookupA_pendingPush_ne (l : List (String × List String)) (k k' v : String)
    (h : k' ≠ k) : lookupA (pendingPush l k v) k' = lookupA l k' := by
  rw [pendingPush]
  rcases hl : lookupA l k with _ | vs
  · show lookupA (l ++ [(k, [v])]) k' = lookupA l k'
    rcases hk' : lookupA l k' with _ | w
    · rw [lookupA_append_right l _ k' hk', lookupA,
        if_neg (fun hc => h hc.symm)]
      rfl
    · rw [lookupA_append_left l _ k' w hk']
  · exact lookupA_setKey_ne l k k' _ h

/-- Folding `candidate` signals for an unregistered peer only accumulates
the pending buffer. -/
theorem fold_candidates_absent (p : String) (cs : List String) :
    ∀ st : VoiceManager, lookupA st.peers p = none →
      cs.foldl (fun s c => VoiceManager.handle_signal s p "candidate" c) st =
      { st with pending_candidates :=
          cs.foldl (fun l c => pendingPush l p c) st.pending_candidates } := by
  induction cs with
  | nil => intro st _; rfl
  | cons c rest ih =>
    intro st h
    rw [List.foldl_cons, handle_candidate_absent st p c h, List.foldl_cons]
    exact ih _ h

/-- The pending buffer accumulated by successive pushes. -/
theorem lookupA_foldl_pendingPush (p : String) (cs : List String) :
    ∀ l, lookupA (cs.foldl (fun l c => pendingPush l p c) l) p =
      (if cs.isEmpty then lookupA l p else some ((lookupA l p).getD [] ++ cs)) := by
  induction cs with
  | nil => intro l; rfl
  | cons c rest ih =>
    intro l
    rw [List.foldl_cons, ih]
    rcases rest with _ | ⟨r, rs⟩
    · simp [lookupA_pendingPush_self]
    · simp [lookupA_pendingPush_self]

/-- A remote `offer` from an unregistered peer creates the connection,
applies the remote description, drains that peer's pending candidates into
the connection in arrival order, sets the local answer, and empties the
peer's pending buffer (`manager.rs` lines 478–500). -/
theorem handle_offer_absent (st : VoiceManager) (p sdp : String)
    (hpeer : lookupA st.peers p = none) :
    (st.handle_signal p "offer" sdp).peers = st.peers ++ [(p, st.conns.length)] ∧
    (st.handle_signal p "offer" sdp).conns.get? st.conns.length =
      some { closed := false, remoteDesc := some sdp, localDesc := some "answer",
             candidates := (lookupA st.pending_candidates p).getD [] } ∧
    lookupA (st.handle_signal p "offer" sdp).pending_candidates p = none := by
  rw [VoiceManager.handle_signal,
    if_neg (by decide : ¬ ("offer" : String) = "join_voice"), if_pos rfl]
  simp only [VoiceManager.create_peer_connection, hpeer,
    if_neg (by decide : ¬ (false = true))]
  rcases hl : lookupA st.pending_candidates p with _ | cands
  · refine ⟨rfl, ?_, ?_⟩
    · rw [setLocalDesc, modifyConn_get?_self, setRemoteDesc, modifyConn_get?_self,
        get?_concat_length]
      rfl
    · exact hl
  · simp only []
    rw [fold_pushCandidate_state]
    refine ⟨rfl, ?_, ?_⟩
    · rw [setLocalDesc, modifyConn_get?_self,
        fold_pushCandidate_get? _ _ _ ({ Conn.fresh with remoteDesc := some sdp })
          (by rw [setRemoteDesc, modifyConn_get?_self, get?_concat_length]; rfl)]
      rfl
    · exact lookupA_removeKey_self st.pending_candidates p

/-- A `candidate` for a registered peer is applied to its connection
directly (`manager.rs` lines 508–513). -/
theorem handle_candidate_present (st : VoiceManager) (p c : String) (cid : ℕ)
    (h : lookupA st.peers p = some cid) :
    st.handle_signal p "candidate" c = { st with conns := pushCandidate st.conns cid c } := by
  rw [VoiceManager.handle_signal,
    if_neg (by decide : ¬ ("candidate" : String) = "join_voice"),
    if_neg (by decide : ¬ ("candidate" : String) = "offer"),
    if_neg (by decide : ¬ ("candidate" : String) = "answer"),
    if_pos rfl, h]

/-- C1 (amended): candidates that arrive for a peer with no connection are
buffered, never dropped; handling a remote `offer` from that peer drains
the whole buffer into the freshly created connection in arrival order and
empties the buffer, and any candidate arriving after the offer is applied
to the connection after all the formerly buffered ones.  (As stated the
claim is false: a connection created by `join_voice` does not drain the
buffer — see the counterexample theorem.) -/
theorem candidate_buffer_drain_on_offer (st : VoiceManager) (p : String) (cs : List String)
    (sdp c' : String) (hpeer : lookupA st.peers p = none)
    (hpend : lookupA st.pending_candidates p = none) :
    let st1 := cs.foldl (fun s c => VoiceManager.handle_signal s p "candidate" c) st
    let st2 := st1.handle_signal p "offer" sdp
    let st3 := st2.handle_signal p "candidate" c'
    connCandidates st2 p = some cs ∧ lookupA st2.pending_candidates p = none ∧
      connCandidates st3 p = some (cs ++ [c']) := by
  intro st1 st2 st3
  have hst1 : st1 = { st with pending_candidates := cs.foldl (fun l c => pendingPush l p c) st.pending_candidates } :=
    fold_candidates_absent p cs st hpeer
  have hpeer1 : lookupA st1.peers p = none := by rw [hst1]; exact hpeer
  have hpend1 : lookupA st1.pending_candidates p =
      (if cs.isEmpty then none else some cs) := by
    rw [hst1]
    show lookupA (cs.foldl (fun l c => pendingPush l p c) st.pending_candidates) p = _
    rw [lookupA_foldl_pendingPush p cs st.pending_candidates, hpend]
    rcases cs with _ | ⟨x, xs⟩ <;> simp
  obtain ⟨hp2, hc2, hpd2⟩ := handle_offer_absent st1 p sdp hpeer1
  have hgd : (lookupA st1.pending_candidates p).getD [] = cs := by
    rw [hpend1]
    rcases cs with _ | ⟨x, xs⟩ <;> simp
  have hlook2 : lookupA (st1.handle_signal p "offer" sdp).peers p =
      some st1.conns.length := by
    rw [hp2, lookupA_append_right _ _ _ hpeer1, lookupA, if_pos rfl]
  have hcand2 : connCandidates (st1.handle_signal p "offer" sdp) p = some cs := by
    simp only [connCandidates, hlook2, hc2, Option.map_some', hgd]
  refine ⟨hcand2, hpd2, ?_⟩
  show connCandidates ((st1.handle_signal p "offer" sdp).handle_signal p "candidate" c') p =
    some (cs ++ [c'])
  rw [handle_candidate_present _ p c' st1.conns.length hlook2]
  simp only [connCandidates, pushCandidate]
  simp only [hlook2, modifyConn_get?_self, hc2, Option.map_some', hgd]

/-- Counterexample to C1 as stated: a buffered candidate is *not* drained
when the connection is created by `join_voice`; it stays in the pending
buffer, and a later candidate is applied to the connection ahead of it. -/
theorem candidate_buffer_join_voice_cex :
    let s1 := VoiceManager.init.handle_signal "p" "candidate" "c"
    let s2 := s1.handle_signal "p" "join_voice" ""
    (lookupA s2.peers "p").isSome = true ∧
    connCandidates s2 "p" = some [] ∧
    lookupA s2.pending_candidates "p" = some ["c"] ∧
    connCandidates (s2.handle_signal "p" "candidate" "d") "p" = some ["d"] := by
  decide

/-- Witness for C1 (amended) with two buffered candidates. -/
theorem candidate_buffer_drain_on_offer_witness :
    let st1 := ["c1", "c2"].foldl
      (fun s c => VoiceManager.handle_signal s "p" "candidate" c) VoiceManager.init
    let st2 := st1.handle_signal "p" "offer" "sdp"
    let st3 := st2.handle_signal "p" "candidate" "d"
    connCandidates st2 "p" = some ["c1", "c2"] ∧
      lookupA st2.pending_candidates "p" = none ∧
      connCandidates st3 "p" = some (["c1", "c2"] ++ ["d"]) :=
  candidate_buffer_drain_on_offer VoiceManager.init "p" ["c1", "c2"] "sdp" "d" rfl rfl

theorem removeKey_of_lookupA_none {α : Type} (l : List (String × α)) (k : String)
    (h : lookupA l k = none) : removeKey l k = l := by
  induction l with
  | nil => rfl
  | cons e rest ih =>
    rw [lookupA] at h
    rw [removeKey]
    by_cases he : e.1 = k
    · rw [if_pos he] at h; exact absurd h (by simp)
    · rw [if_neg he] at h ⊢
      rw [ih h]

/-- What `create_peer_connection` does to the state: the peer's old entry
is replaced by a fresh one pointing at the newly appended connection, the
old connection (when the registry pointed into the arena) is closed, the
new one is live, the peer's stale playback stream is removed, and the
pending buffer is untouched. -/
theorem get?_concat_length' (cs : List Conn) (c : Conn) (i : ℕ) (h : i = cs.length) :
    (cs ++ [c]).get? i = some c := by
  subst h
  exact get?_concat_length cs c

/-- What `create_peer_connection` does to the state: the peer's old entry
is replaced by a fresh one pointing at the newly appended connection, the
old connection (when the registry pointed into the arena) is closed, the
new one is live, the peer's stale playback stream is removed, and the
pending buffer is untouched. -/
theorem create_spec (st : VoiceManager) (p : String) (b : Bool) :
    (st.create_peer_connection p b).2 = st.conns.length ∧
    (st.create_peer_connection p b).1.peers = removeKey st.peers p ++ [(p, st.conns.length)] ∧
    (st.create_peer_connection p b).1.conns.length = st.conns.length + 1 ∧
    (st.create_peer_connection p b).1.audio_engine = st.audio_engine.remove_peer_stream p ∧
    (st.create_peer_connection p b).1.pending_candidates = st.pending_candidates ∧
    (∀ cid, lookupA st.peers p = some cid → cid < st.conns.length →
      connClosed (st.create_peer_connection p b).1.conns cid = true) ∧
    connClosed (st.create_peer_connection p b).1.conns st.conns.length = false := by
  rcases hlp : lookupA st.peers p with _ | cid0 <;> cases b <;>
    refine ⟨?_, ?_, ?_, ?_, ?_, ?_, ?_⟩
  all_goals simp only [VoiceManager.create_peer_connection, hlp, if_true, ite_true,
    if_neg (show ¬ (false = true) by decide)]
  all_goals try (rw [removeKey_of_lookupA_none st.peers p hlp])
  all_goals try (simp [closeConn, setLocalDesc, modifyConn_length])
  case none.false.refine_7 =>
    rw [connClosed, get?_concat_length]
    rfl
  case none.true.refine_7 =>
    rw [connClosed, modifyConn_get?_self, get?_concat_length]
    rfl
  case some.false.refine_6 =>
    intro hbound
    rw [connClosed, get?_append_left_conn _ _ _ (by rw [modifyConn_length]; exact hbound),
      modifyConn_get?_self]
    rcases hg : st.conns.get? cid0 with _ | c <;> rfl
  case some.false.refine_7 =>
    rw [connClosed, get?_concat_length' _ _ _ (by rw [modifyConn_length])]
    rfl
  case some.true.refine_6 =>
    intro hbound
    rw [connClosed, modifyConn_get?_ne _ _ _ _ (by omega),
      get?_append_left_conn _ _ _ (by rw [modifyConn_length]; exact hbound),
      modifyConn_get?_self]
    rcases hg : st.conns.get? cid0 with _ | c <;> rfl
  case some.true.refine_7 =>
    rw [connClosed, modifyConn_get?_self, get?_concat_length' _ _ _ (by rw [modifyConn_length])]
    rfl

theorem fold_pushCandidate_length (cid : ℕ) (cands : List String) :
    ∀ cs : List Conn, (cands.foldl (fun cs c => pushCandidate cs cid c) cs).length = cs.length := by
  induction cands with
  | nil => intro cs; rfl
  | cons c rest ih =>
    intro cs
    rw [List.foldl_cons, ih, pushCandidate, modifyConn_length]

theorem mem_remove_peer_stream (a : AudioEngine) (p q : String) :
    q ∈ (a.remove_peer_stream p).playback_peers ↔ q ∈ a.playback_peers ∧ q ≠ p := by
  simp [AudioEngine.remove_peer_stream, List.mem_filter]

/-- `MInv` transfer along state surgery that keeps the registry and the
playback set and does not shrink the arena. -/
theorem minv_of_same (st st' : VoiceManager) (h : MInv st)
    (hp : st'.peers = st.peers)
    (ha : st'.audio_engine.playback_peers = st.audio_engine.playback_peers)
    (hc : st.conns.length ≤ st'.conns.length) : MInv st' := by
  obtain ⟨hnd, hpnd, hsub, hbound⟩ := h
  refine ⟨by rw [hp]; exact hnd, by rw [ha]; exact hpnd, ?_, ?_⟩
  · intro q hq
    rw [ha] at hq
    rw [hp]
    exact hsub q hq
  · intro e he
    rw [hp] at he
    exact lt_of_lt_of_le (hbound e he) hc

theorem minv_of_empty (st' : VoiceManager) (hp : st'.peers = [])
    (ha : st'.audio_engine.playback_peers = []) : MInv st' := by
  refine ⟨by rw [hp]; simp, by rw [ha]; simp, ?_, ?_⟩
  · intro q hq
    rw [ha] at hq
    cases hq
  · intro e he
    rw [hp] at he
    cases he

theorem minv_create (st : VoiceManager) (p : String) (b : Bool) (h : MInv st) :
    MInv (st.create_peer_connection p b).1 := by
  obtain ⟨hnd, hpnd, hsub, hbound⟩ := h
  obtain ⟨hcid, hpeers, hclen, haud, hpend, hold, hnew⟩ := create_spec st p b
  have hnotin : p ∉ (removeKey st.peers p).map Prod.fst :=
    (lookupA_none_iff_not_mem _ _).mp (lookupA_removeKey_self st.peers p)
  have hsubnd : ((removeKey st.peers p).map Prod.fst).Nodup :=
    hnd.sublist ((removeKey_sublist st.peers p).map Prod.fst)
  refine ⟨?_, ?_, ?_, ?_⟩
  · rw [hpeers, List.map_append, List.nodup_append]
    refine ⟨hsubnd, by simp, ?_⟩
    intro a ha hb
    simp only [List.map_cons, List.map_nil, List.mem_singleton] at hb
    subst hb
    exact hnotin ha
  · rw [haud]
    exact hpnd.filter _
  · intro q hq
    rw [haud, mem_remove_peer_stream] at hq
    obtain ⟨hq1, hq2⟩ := hq
    rw [hpeers]
    obtain ⟨v, hv⟩ := Option.isSome_iff_exists.mp (hsub q hq1)
    have hv' : lookupA (removeKey st.peers p) q = some v := by
      rw [lookupA_removeKey_ne st.peers p q hq2]
      exact hv
    rw [lookupA_append_left _ _ _ _ hv']
    rfl
  · intro e he
    rw [hpeers] at he
    rw [hclen]
    rcases List.mem_append.mp he with he1 | he2
    · have : e ∈ st.peers := (removeKey_sublist st.peers p).mem he1
      exact lt_of_lt_of_le (hbound e this) (by omega)
    · simp only [List.mem_singleton] at he2
      subst he2
      simp

/-- The `offer` handler is `create_peer_connection` followed by surgery on
the connection contents and the pending buffer only. -/
theorem handle_offer_shape (st : VoiceManager) (p sdp : String) :
    (st.handle_signal p "offer" sdp).peers = (st.create_peer_connection p false).1.peers ∧
    (st.handle_signal p "offer" sdp).audio_engine =
      (st.create_peer_connection p false).1.audio_engine ∧
    (st.handle_signal p "offer" sdp).conns.length =
      (st.create_peer_connection p false).1.conns.length := by
  rw [VoiceManager.handle_signal,
    if_neg (by decide : ¬ ("offer" : String) = "join_voice"), if_pos rfl]
  rcases hl : lookupA (st.create_peer_connection p false).1.pending_candidates p with _ | cands
  · simp only [hl]
    refine ⟨?_, ?_, ?_⟩ <;> try trivial
    rw [setLocalDesc, modifyConn_length, setRemoteDesc, modifyConn_length]
  · simp only [hl]
    rw [fold_pushCandidate_state]
    refine ⟨?_, ?_, ?_⟩ <;> try trivial
    rw [setLocalDesc, modifyConn_length, fold_pushCandidate_length,
      setRemoteDesc, modifyConn_length]

/-- The `leave_voice`-signal and `CleanupPeer` surgery preserves `MInv`. -/
theorem minv_remove_peer (st : VoiceManager) (p : String) (h : MInv st)
    (st' : VoiceManager)
    (hp : st'.peers = removeKey st.peers p ∨ st'.peers = st.peers)
    (ha : st'.audio_engine.playback_peers =
      (st.audio_engine.remove_peer_stream p).playback_peers)
    (hc : st.conns.length ≤ st'.conns.length) : MInv st' := by
  obtain ⟨hnd, hpnd, hsub, hbound⟩ := h
  have hsubl : st'.peers.Sublist st.peers := by
    rcases hp with hp | hp
    · rw [hp]; exact removeKey_sublist st.peers p
    · rw [hp]
  refine ⟨hnd.sublist (hsubl.map Prod.fst), by rw [ha]; exact hpnd.filter _, ?_, ?_⟩
  · intro q hq
    rw [ha, mem_remove_peer_stream] at hq
    obtain ⟨hq1, hq2⟩ := hq
    obtain ⟨v, hv⟩ := Option.isSome_iff_exists.mp (hsub q hq1)
    rcases hp with hp | hp
    · rw [hp, lookupA_removeKey_ne st.peers p q hq2, hv]
      rfl
    · rw [hp, hv]
      rfl
  · intro e he
    exact lt_of_lt_of_le (hbound e (hsubl.mem he)) hc

/-- Every atomic action preserves the structural invariant. -/
theorem minv_step (st : VoiceManager) (a : Act) (h : MInv st) : MInv (st.step a) := by
  cases a with
  | join r ok =>
    show MInv (st.join_voice r ok)
    cases ok
    · exact minv_of_empty _ rfl rfl
    · exact minv_of_empty _ rfl rfl
  | leave =>
    show MInv st.leave_voice
    by_cases hr : st.room_id.isSome
    · exact minv_of_empty _ (by simp [VoiceManager.leave_voice, hr])
        (by simp [VoiceManager.leave_voice, hr, AudioEngine.reset])
    · exact minv_of_empty _ (by simp [VoiceManager.leave_voice, hr])
        (by simp [VoiceManager.leave_voice, hr, AudioEngine.reset])
  | mute b =>
    exact minv_of_same st _ h rfl rfl (le_refl _)
  | cleanup p =>
    show MInv (st.cleanup_peer p)
    rcases hl : lookupA st.peers p with _ | cid
    · refine minv_remove_peer st p h _ (Or.inr ?_) ?_ ?_ <;>
        simp [VoiceManager.cleanup_peer, hl]
    · refine minv_remove_peer st p h _ (Or.inl ?_) ?_ ?_ <;>
        simp [VoiceManager.cleanup_peer, hl, closeConn, modifyConn_length]
  | captureTick =>
    show MInv st.capture_tick
    rw [VoiceManager.capture_tick]
    by_cases hc : st.audio_engine.capture_open
    · rw [if_pos hc]
      exact minv_of_same st _ h rfl rfl (le_refl _)
    · rw [if_neg hc]
      exact h
  | feedTick =>
    show MInv st.feed_tick
    rw [VoiceManager.feed_tick]
    rcases hq : st.encoded_queue with _ | ⟨pkt, rest⟩
    · exact h
    · simp only []
      by_cases hm : st.is_muted
      · rw [if_pos hm]
        exact minv_of_same st _ h rfl rfl (le_refl _)
      · rw [if_neg hm]
        exact minv_of_same st _ h rfl rfl (le_refl _)
  | trackArrives p =>
    show MInv (st.track_arrives p)
    rw [VoiceManager.track_arrives]
    by_cases hl : (lookupA st.peers p).isSome
    · rw [if_pos hl]
      by_cases hj : st.is_joined
      · rw [if_pos hj]
        obtain ⟨hnd, hpnd, hsub, hbound⟩ := h
        rw [AudioEngine.start_playback_for_peer]
        by_cases hmem : p ∈ st.audio_engine.playback_peers
        · rw [if_pos hmem]
          exact ⟨hnd, hpnd, hsub, hbound⟩
        · rw [if_neg hmem]
          refine ⟨hnd, ?_, ?_, hbound⟩
          · simp only [List.nodup_append]
            exact ⟨hpnd, by simp, by intro q hq hq2; simp only [List.mem_singleton] at hq2; exact hmem (hq2 ▸ hq)⟩
          · intro q hq
            simp only [List.mem_append, List.mem_singleton] at hq
            rcases hq with hq | rfl
            · exact hsub q hq
            · exact hl
      · rw [if_neg hj]
        exact h
    · rw [if_neg hl]
      exact h
  | signal s t d =>
    show MInv (st.handle_signal s t d)
    by_cases h1 : t = "join_voice"
    · subst h1
      rw [VoiceManager.handle_signal, if_pos rfl]
      exact minv_create st s true h
    · by_cases h2 : t = "offer"
      · subst h2
        obtain ⟨hp, ha, hc⟩ := handle_offer_shape st s d
        have hcre := minv_create st s false h
        exact minv_of_same _ _ hcre hp (by rw [ha]) (by rw [hc])
      · by_cases h3 : t = "answer"
        · subst h3
          rw [VoiceManager.handle_signal, if_neg h1, if_neg h2, if_pos rfl]
          rcases hl : lookupA st.peers s with _ | cid
          · exact h
          · simp only []
            exact minv_of_same st _ h rfl rfl
              (by rw [setRemoteDesc, modifyConn_length])
        · by_cases h4 : t = "candidate"
          · subst h4
            rw [VoiceManager.handle_signal, if_neg h1, if_neg h2, if_neg h3, if_pos rfl]
            rcases hl : lookupA st.peers s with _ | cid
            · simp only []
              exact minv_of_same st _ h rfl rfl (le_refl _)
            · simp only []
              exact minv_of_same st _ h rfl rfl
                (by rw [pushCandidate, modifyConn_length])
          · by_cases h5 : t = "leave_voice"
            · subst h5
              rw [VoiceManager.handle_signal, if_neg h1, if_neg h2, if_neg h3, if_neg h4,
                if_pos rfl]
              rcases hl : lookupA st.peers s with _ | cid
              · exact minv_remove_peer st s h _ (Or.inr rfl) rfl (le_refl _)
              · refine minv_remove_peer st s h _ (Or.inl ?_) ?_ ?_ <;> simp only []
                rw [closeConn, modifyConn_length]
            · rw [VoiceManager.handle_signal, if_neg h1, if_neg h2, if_neg h3, if_neg h4,
                if_neg h5]
              exact h

/-- The structural invariant holds for every reachable manager state. -/
theorem minv_runActs (acts : List Act) : MInv (VoiceManager.runActs acts) := by
  have hgen : ∀ (l : List Act) (st : VoiceManager), MInv st →
      MInv (l.foldl VoiceManager.step st) := by
    intro l
    induction l with
    | nil => intro st h; exact h
    | cons a rest ih =>
      intro st h
      rw [List.foldl_cons]
      exact ih _ (minv_step st a h)
  refine hgen acts VoiceManager.init ⟨?_, ?_, ?_, ?_⟩
  · simp [VoiceManager.init]
  · simp [VoiceManager.init, AudioEngine.new]
  · intro q hq
    simp [VoiceManager.init, AudioEngine.new] at hq
  · intro e he
    simp [VoiceManager.init] at he

theorem lookupA_some_mem {α : Type} (l : List (String × α)) (k : String) (v : α)
    (h : lookupA l k = some v) : (k, v) ∈ l := by
  induction l with
  | nil => cases h
  | cons e rest ih =>
    rw [lookupA] at h
    by_cases he : e.1 = k
    · rw [if_pos he] at h
      have hv : e.2 = v := Option.some.inj h
      have : (k, v) = e := by
        rw [← he, ← hv]
      rw [this]
      exact List.mem_cons_self e rest
    · rw [if_neg he] at h
      exact List.mem_cons_of_mem e (ih h)

/-- C2: at most one registry entry exists per peer id in every reachable
state, and `create_peer_connection` on a peer that already has an entry
first closes the old connection and leaves exactly one (live) entry. -/
theorem peer_registry_unique_live_entry :
    (∀ (acts : List Act) (p : String), countKey (VoiceManager.runActs acts).peers p ≤ 1) ∧
    (∀ (st : VoiceManager) (p : String) (b : Bool), MInv st →
      countKey (st.create_peer_connection p b).1.peers p = 1 ∧
      (∀ cid, lookupA st.peers p = some cid →
        connClosed (st.create_peer_connection p b).1.conns cid = true) ∧
      (∃ ncid, lookupA (st.create_peer_connection p b).1.peers p = some ncid ∧
        connClosed (st.create_peer_connection p b).1.conns ncid = false)) := by
  constructor
  · intro acts p
    exact countKey_le_one_of_nodup _ p (minv_runActs acts).1
  · intro st p b hinv
    obtain ⟨hcid, hpeers, hclen, haud, hpend, hold, hnew⟩ := create_spec st p b
    refine ⟨?_, ?_, ?_⟩
    · rw [hpeers, countKey_append, countKey_eq_zero_of_removeKey]
      simp [countKey]
    · intro cid hcd
      exact hold cid hcd (hinv.2.2.2 (p, cid) (lookupA_some_mem st.peers p cid hcd))
    · refine ⟨st.conns.length, ?_, hnew⟩
      rw [hpeers, lookupA_append_right _ _ _ (lookupA_removeKey_self _ _), lookupA,
        if_pos rfl]

/-- Witness for C2: a second `join_voice` from the same peer leaves one
entry and closes the first connection (arena index 0). -/
theorem peer_registry_unique_live_entry_witness :
    countKey ((VoiceManager.init.handle_signal "p" "join_voice" "").create_peer_connection
      "p" true).1.peers "p" = 1 ∧
    connClosed ((VoiceManager.init.handle_signal "p" "join_voice" "").create_peer_connection
      "p" true).1.conns 0 = true := by
  have h := peer_registry_unique_live_entry.2
    (VoiceManager.init.handle_signal "p" "join_voice" "") "p" true
    (by unfold MInv; refine ⟨by decide, by decide, by decide, by decide⟩)
  exact ⟨h.1, h.2.1 0 (by decide)⟩

/-- C4: after the local `Leave` handler completes, the peer registry is
empty, the pending-candidate map is empty, the local track is cleared, and
no capture or playback stream is open. -/
theorem leave_terminal_clean (st : VoiceManager) :
    st.leave_voice.peers = [] ∧ st.leave_voice.pending_candidates = [] ∧
    st.leave_voice.local_track = false ∧
    st.leave_voice.audio_engine.capture_open = false ∧
    st.leave_voice.audio_engine.playback_peers = [] := by
  by_cases hr : st.room_id.isSome <;>
    simp [VoiceManager.leave_voice, hr, AudioEngine.reset]

/-- C6: if microphone capture fails during `Join`, the handler emits
`Connecting` then `ConnectionFailed` and nothing else, leaves the joined
flag false, the room id cleared, the track and capture closed — and emits
no outbound `Signal` whatsoever: no peers are contacted. -/
theorem join_failure_atomic (st : VoiceManager) (room : String) :
    (st.join_voice room false).is_joined = false ∧
    (st.join_voice room false).room_id = none ∧
    (st.join_voice room false).local_track = false ∧
    (st.join_voice room false).audio_engine.capture_open = false ∧
    (st.join_voice room false).events =
      st.events ++ [VoiceEvent.Connecting,
        VoiceEvent.ConnectionFailed "Failed to start microphone"] ∧
    ((st.join_voice room false).events.drop st.events.length).filter
      VoiceEvent.isSignal = [] := by
  have hev : (st.join_voice room false).events =
      st.events ++ [VoiceEvent.Connecting,
        VoiceEvent.ConnectionFailed "Failed to start microphone"] := by
    simp [VoiceManager.join_voice]
  refine ⟨by simp [VoiceManager.join_voice], by simp [VoiceManager.join_voice],
    by simp [VoiceManager.join_voice],
    by simp [VoiceManager.join_voice, AudioEngine.reset], hev, ?_⟩
  rw [hev, List.drop_left]
  rfl

/-- C8 (amended): `Leave` emits (after the optional broadcast
`leave_voice` signal) one `PeerDisconnected` per registered peer, then
`TxActivity(false)`, then `MuteStateChanged(false)`, and `Disconnected`
strictly last.  (As stated the claim is false only in the relative order
of `MuteStateChanged(false)` and `TxActivity(false)`: the code emits
`TxActivity(false)` first — see the counterexample theorem.) -/
theorem leave_event_sequence (st : VoiceManager) :
    st.leave_voice.events =
      st.events ++
        (if st.room_id.isSome then [VoiceEvent.Signal none "leave_voice" ""] else []) ++
        st.peers.map (fun e => VoiceEvent.PeerDisconnected e.1) ++
        [VoiceEvent.TxActivity false, VoiceEvent.MuteStateChanged false,
         VoiceEvent.Disconnected] := by
  by_cases hr : st.room_id.isSome <;>
    simp [VoiceManager.leave_voice, hr, List.append_assoc]

/-- Counterexample to C8 as stated: with two connected peers, `Leave`
emits `TxActivity(false)` *before* `MuteStateChanged(false)` (the claim
lists them the other way round); `Disconnected` is still last. -/
theorem leave_event_order_cex :
    let st := VoiceManager.runActs
      [Act.join "r" true, Act.signal "a" "join_voice" "", Act.signal "b" "join_voice" ""]
    let evs := st.leave_voice.events
    evs = [VoiceEvent.Connecting, VoiceEvent.Signal none "join_voice" "",
      VoiceEvent.Connected, VoiceEvent.Signal (some "a") "offer" "offer",
      VoiceEvent.Signal (some "b") "offer" "offer",
      VoiceEvent.Signal none "leave_voice" "", VoiceEvent.PeerDisconnected "a",
      VoiceEvent.PeerDisconnected "b", VoiceEvent.TxActivity false,
      VoiceEvent.MuteStateChanged false, VoiceEvent.Disconnected] ∧
    evs.count (VoiceEvent.MuteStateChanged false) = 1 ∧
    evs.count (VoiceEvent.TxActivity false) = 1 ∧
    evs.indexOf (VoiceEvent.TxActivity false) < evs.indexOf (VoiceEvent.MuteStateChanged false) := by
  decide

theorem create_track_writes (st : VoiceManager) (p : String) (b : Bool) :
    (st.create_peer_connection p b).1.track_writes = st.track_writes := by
  rcases hlp : lookupA st.peers p with _ | cid <;> cases b <;>
    simp [VoiceManager.create_peer_connection, hlp]

theorem handle_signal_track_writes (st : VoiceManager) (s t d : String) :
    (st.handle_signal s t d).track_writes = st.track_writes := by
  by_cases h1 : t = "join_voice"
  · subst h1
    rw [VoiceManager.handle_signal, if_pos rfl]
    exact create_track_writes st s true
  · by_cases h2 : t = "offer"
    · subst h2
      rw [VoiceManager.handle_signal, if_neg h1, if_pos rfl]
      rcases hl : lookupA (st.create_peer_connection s false).1.pending_candidates s
        with _ | cands
      · try simp only [hl]
        try simp only []
        exact create_track_writes st s false
      · try simp only [hl]
        rw [fold_pushCandidate_state]
        try simp only []
        exact create_track_writes st s false
    · by_cases h3 : t = "answer"
      · subst h3
        rw [VoiceManager.handle_signal, if_neg h1, if_neg h2, if_pos rfl]
        rcases hl : lookupA st.peers s with _ | cid <;> rfl
      · by_cases h4 : t = "candidate"
        · subst h4
          rw [VoiceManager.handle_signal, if_neg h1, if_neg h2, if_neg h3, if_pos rfl]
          rcases hl : lookupA st.peers s with _ | cid <;> rfl
        · by_cases h5 : t = "leave_voice"
          · subst h5
            rw [VoiceManager.handle_signal, if_neg h1, if_neg h2, if_neg h3, if_neg h4,
              if_pos rfl]
            rcases hl : lookupA st.peers s with _ | cid <;> rfl
          · rw [VoiceManager.handle_signal, if_neg h1, if_neg h2, if_neg h3, if_neg h4,
              if_neg h5]

/-- A step either keeps `track_writes` or appends a write recorded with
the mute flag false (the feed task drops packets while muted). -/
theorem step_track_writes (st : VoiceManager) (a : Act) :
    ∀ w ∈ (st.step a).track_writes, w ∈ st.track_writes ∨ w.2.2 = false := by
  cases a with
  | join r ok =>
    intro w hw
    left
    cases ok <;> simpa [VoiceManager.step, VoiceManager.join_voice] using hw
  | leave =>
    intro w hw
    left
    by_cases hr : st.room_id.isSome <;>
      simpa [VoiceManager.step, VoiceManager.leave_voice, hr] using hw
  | mute b =>
    intro w hw
    left
    simpa [VoiceManager.step, VoiceManager.set_mute] using hw
  | signal s t d =>
    intro w hw
    left
    rwa [VoiceManager.step, handle_signal_track_writes] at hw
  | cleanup p =>
    intro w hw
    left
    rcases hl : lookupA st.peers p with _ | cid <;>
      simpa [VoiceManager.step, VoiceManager.cleanup_peer, hl] using hw
  | captureTick =>
    intro w hw
    left
    by_cases hc : st.audio_engine.capture_open <;>
      simpa [VoiceManager.step, VoiceManager.capture_tick, hc] using hw
  | trackArrives p =>
    intro w hw
    left
    by_cases hl : (lookupA st.peers p).isSome <;>
      by_cases hj : st.is_joined <;>
      simpa [VoiceManager.step, VoiceManager.track_arrives, hl, hj] using hw
  | feedTick =>
    intro w hw
    rw [VoiceManager.step, VoiceManager.feed_tick] at hw
    rcases hq : st.encoded_queue with _ | ⟨pkt, rest⟩
    · rw [hq] at hw
      left
      exact hw
    · rw [hq] at hw
      simp only [] at hw
      by_cases hm : st.is_muted
      · rw [if_pos hm] at hw
        left
        exact hw
      · rw [if_neg hm] at hw
        simp only [] at hw
        rcases List.mem_append.mp hw with h | h
        · left
          exact h
        · right
          simp only [List.mem_singleton] at h
          subst h
          show st.is_muted = false
          rcases hb : st.is_muted with _ | _
          · rfl
          · exact absurd hb hm

/-- C5 (amended): every packet the feed task writes to the local track is
written with the mute flag false (muted packets are dropped), and `Mute`
touches neither the audio engine (the capture stream stays open — no
microphone re-open on unmute) nor the encoded-packet queue.  (As stated
the claim is false: the feed task does not consult the joined flag, so a
packet still queued when `Leave` runs is written with `is_joined = false` —
see the counterexample theorem.) -/
theorem mute_gates_transmission :
    (∀ (acts : List Act) (w : ℕ × Bool × Bool),
      w ∈ (VoiceManager.runActs acts).track_writes → w.2.2 = false) ∧
    (∀ (st : VoiceManager) (b : Bool),
      (st.set_mute b).audio_engine = st.audio_engine ∧
      (st.set_mute b).encoded_queue = st.encoded_queue ∧
      (st.set_mute b).track_writes = st.track_writes) := by
  constructor
  · have hgen : ∀ (l : List Act) (st : VoiceManager),
        (∀ w ∈ st.track_writes, w.2.2 = false) →
        ∀ w ∈ (l.foldl VoiceManager.step st).track_writes, w.2.2 = false := by
      intro l
      induction l with
      | nil => intro st h; exact h
      | cons a rest ih =>
        intro st h
        rw [List.foldl_cons]
        refine ih _ ?_
        intro w hw
        rcases step_track_writes st a w hw with h1 | h1
        · exact h w h1
        · exact h1
    intro acts w hw
    exact hgen acts VoiceManager.init (by intro w hw; cases hw) w hw
  · intro st b
    exact ⟨rfl, rfl, rfl⟩

/-- Counterexample to C5 as stated: a packet encoded while joined but
still queued when `Leave` runs is written to the track afterwards with
`is_joined = false` (recorded as `(packet 0, joined := false, muted :=
false)`). -/
theorem transmit_after_leave_cex :
    (VoiceManager.runActs [Act.join "r" true, Act.captureTick, Act.leave,
      Act.feedTick]).track_writes = [(0, false, false)] := by
  decide

/-- Witness for C5 (amended). -/
theorem mute_gates_transmission_witness :
    ((0 : ℕ), true, false).2.2 = false ∧
    (VoiceManager.init.set_mute true).audio_engine = VoiceManager.init.audio_engine :=
  ⟨mute_gates_transmission.1 [Act.join "r" true, Act.captureTick, Act.feedTick]
      (0, true, false) (by decide),
   (mute_gates_transmission.2 VoiceManager.init true).1⟩

/-- C7: in every reachable state each playback stream is owned by a
registered peer (streams are keyed by peer id and never outlive the
owning PeerConnection entry), `remove_peer_stream` is idempotent, and a
`Leave` appended to any action sequence reaches zero open streams —
repeated join/leave cycles accumulate no orphans. -/
theorem playback_stream_lifecycle :
    (∀ (acts : List Act) (p : String),
      p ∈ (VoiceManager.runActs acts).audio_engine.playback_peers →
      (lookupA (VoiceManager.runActs acts).peers p).isSome = true) ∧
    (∀ (a : AudioEngine) (p : String),
      (a.remove_peer_stream p).remove_peer_stream p = a.remove_peer_stream p) ∧
    (∀ acts : List Act,
      (VoiceManager.runActs (acts ++ [Act.leave])).audio_engine.playback_peers = [] ∧
      (VoiceManager.runActs (acts ++ [Act.leave])).audio_engine.capture_open = false) := by
  refine ⟨?_, ?_, ?_⟩
  · intro acts p hp
    exact (minv_runActs acts).2.2.1 p hp
  · intro a p
    rw [AudioEngine.remove_peer_stream, AudioEngine.remove_peer_stream]
    simp [List.filter_filter]
  · intro acts
    rw [VoiceManager.runActs, List.foldl_append]
    by_cases hr : (List.foldl VoiceManager.step VoiceManager.init acts).room_id.isSome <;>
      constructor <;>
      simp [VoiceManager.step, VoiceManager.leave_voice, hr, AudioEngine.reset]

/-- Witness for C7: a live peer with a playback stream, and the zeroing
`Leave`. -/
theorem playback_stream_lifecycle_witness :
    (lookupA (VoiceManager.runActs [Act.join "r" true, Act.signal "p" "offer" "sdp",
      Act.trackArrives "p"]).peers "p").isSome = true ∧
    (VoiceManager.runActs ([Act.join "r" true, Act.signal "p" "offer" "sdp",
      Act.trackArrives "p"] ++ [Act.leave])).audio_engine.playback_peers = [] :=
  ⟨playback_stream_lifecycle.1 [Act.join "r" true, Act.signal "p" "offer" "sdp",
      Act.trackArrives "p"] "p" (by decide),
   (playback_stream_lifecycle.2.2 [Act.join "r" true, Act.signal "p" "offer" "sdp",
      Act.trackArrives "p"]).1⟩
